import Mathlib

/-!
# Verification of the Quoridor rules engine (`games/game_Quoridor/core`)

Shallow embedding of the Python core modules `board.py`, `wall.py`,
`player.py`, `pathfinder.py`, `move_validator.py`, `game_state.py`.

Conventions of the embedding:
* Python `int` is Lean `Int`.
* Python `set` is Lean `Finset` (exact extensional set semantics).
* Python lists are Lean `List`s.  `WallManager._walls` appends at the end
  and pops from the end, so it is stored here with the most recently added
  wall first (`walls_rev`); the public `walls` property reverses it.
* Constructors that `raise` on bad input (`Position`, `Wall`, enum lookups)
  are `Option`-valued `make` functions; `try/except` blocks in the source
  become `match` on the `Option`.
* Mutating methods become functions `State -> args -> (result, State)`.
* `datetime` timestamps (`created_at` / `updated_at`) and `uuid` generation
  carry no game content and are omitted; `game_id` is taken as an argument.
-/

set_option maxHeartbeats 1000000

namespace Quoridor

/-! ## board.py -/

def BOARD_SIZE : Int := 9
def WALL_POSITIONS : Int := 8

/-- `Position` dataclass: a (row, col) pair.  The Python `__post_init__`
bounds check lives in `Position.make`. -/
structure Position where
  row : Int
  col : Int
deriving DecidableEq, Repr

def Position.to_tuple (p : Position) : Int × Int := (p.row, p.col)

/-- `Position.__post_init__`: construction fails outside `[0,8] × [0,8]`. -/
def Position.make (row col : Int) : Option Position :=
  if 0 ≤ row ∧ row < BOARD_SIZE ∧ 0 ≤ col ∧ col < BOARD_SIZE then
    some ⟨row, col⟩
  else
    none

namespace Board

/-- `Board.is_valid_cell` -/
def is_valid_cell (row col : Int) : Bool :=
  decide (0 ≤ row ∧ row < BOARD_SIZE ∧ 0 ≤ col ∧ col < BOARD_SIZE)

/-- `Board.is_valid_wall_position` -/
def is_valid_wall_position (row col : Int) : Bool :=
  decide (0 ≤ row ∧ row < WALL_POSITIONS ∧ 0 ≤ col ∧ col < WALL_POSITIONS)

/-- `Board.DIRECTIONS` (up, down, left, right) -/
def DIRECTIONS : List (Int × Int) := [(-1, 0), (1, 0), (0, -1), (0, 1)]

def PLAYER1_START : Position := ⟨8, 4⟩
def PLAYER2_START : Position := ⟨0, 4⟩
def PLAYER1_GOAL_ROW : Int := 0
def PLAYER2_GOAL_ROW : Int := 8

end Board

/-- A position is a valid cell of the board. -/
def Position.valid (p : Position) : Prop :=
  0 ≤ p.row ∧ p.row < BOARD_SIZE ∧ 0 ≤ p.col ∧ p.col < BOARD_SIZE

instance (p : Position) : Decidable p.valid := by
  unfold Position.valid; infer_instance

/-! ## wall.py -/

inductive Orientation where
  | horizontal
  | vertical
deriving DecidableEq, Repr

/-- `Orientation.value` -/
def Orientation.value : Orientation → String
  | .horizontal => "horizontal"
  | .vertical => "vertical"

/-- `Orientation(s)` enum lookup; raises `ValueError` on anything else. -/
def Orientation.fromString (s : String) : Option Orientation :=
  if s = "horizontal" then some .horizontal
  else if s = "vertical" then some .vertical
  else none

/-- `Wall` frozen dataclass (bounds check of `__post_init__` in `Wall.make`). -/
structure Wall where
  row : Int
  col : Int
  orientation : Orientation
deriving DecidableEq, Repr

/-- `Wall.__post_init__`: construction fails outside the wall grid. -/
def Wall.make (row col : Int) (o : Orientation) : Option Wall :=
  if Board.is_valid_wall_position row col then some ⟨row, col, o⟩ else none

/-- Directed edge between two cells, as stored in Python (`(from, to)` tuples). -/
abbrev Edge := (Int × Int) × (Int × Int)

inductive SlotKind where
  | h
  | v
  | center
deriving DecidableEq, Repr

/-- A slot token `(row, col, kind)` as used by `get_occupied_slots`. -/
abbrev Slot := Int × Int × SlotKind

/-- `Wall.get_blocked_edges`: the four ordered cell pairs this wall severs. -/
def Wall.get_blocked_edges (w : Wall) : Finset Edge :=
  match w.orientation with
  | .horizontal =>
      {((w.row, w.col), (w.row + 1, w.col)),
       ((w.row + 1, w.col), (w.row, w.col)),
       ((w.row, w.col + 1), (w.row + 1, w.col + 1)),
       ((w.row + 1, w.col + 1), (w.row, w.col + 1))}
  | .vertical =>
      {((w.row, w.col), (w.row, w.col + 1)),
       ((w.row, w.col + 1), (w.row, w.col)),
       ((w.row + 1, w.col), (w.row + 1, w.col + 1)),
       ((w.row + 1, w.col + 1), (w.row + 1, w.col))}

/-- `Wall.get_occupied_slots`: two slots of the wall's own kind plus the
shared center token. -/
def Wall.get_occupied_slots (w : Wall) : Finset Slot :=
  match w.orientation with
  | .horizontal =>
      {(w.row, w.col, .h), (w.row, w.col + 1, .h), (w.row, w.col, .center)}
  | .vertical =>
      {(w.row, w.col, .v), (w.row + 1, w.col, .v), (w.row, w.col, .center)}

/-- `Wall.intersects_with` -/
def Wall.intersects_with (w other : Wall) : Bool :=
  decide (w.get_occupied_slots ∩ other.get_occupied_slots ≠ ∅)

/-- `Wall.to_dict` -/
structure WallDict where
  row : Int
  col : Int
  orientation : String
deriving DecidableEq, Repr

def Wall.to_dict (w : Wall) : WallDict :=
  ⟨w.row, w.col, w.orientation.value⟩

/-- `Wall.from_dict` (the checked constructor can fail). -/
def Wall.from_dict (d : WallDict) : Option Wall := do
  let o ← Orientation.fromString d.orientation
  Wall.make d.row d.col o

/-- `WallManager`.  `walls_rev` stores the placed walls most-recent-first
(the Python list appends at the end and pops from the end). -/
structure WallManager where
  walls_rev : List Wall
  blocked_edges : Finset Edge
  occupied_slots : Finset Slot
deriving DecidableEq

/-- `WallManager.__init__` -/
def WallManager.empty : WallManager := ⟨[], ∅, ∅⟩

/-- `WallManager.walls` property (placement order). -/
def WallManager.walls (m : WallManager) : List Wall := m.walls_rev.reverse

/-- `WallManager.can_place_wall` -/
def WallManager.can_place_wall (m : WallManager) (w : Wall) : Bool :=
  decide (m.occupied_slots ∩ w.get_occupied_slots = ∅)

/-- `WallManager.add_wall` -/
def WallManager.add_wall (m : WallManager) (w : Wall) : Bool × WallManager :=
  if m.can_place_wall w then
    (true, ⟨w :: m.walls_rev,
            m.blocked_edges ∪ w.get_blocked_edges,
            m.occupied_slots ∪ w.get_occupied_slots⟩)
  else
    (false, m)

/-- `WallManager.is_move_blocked` -/
def WallManager.is_move_blocked (m : WallManager) (from_pos to_pos : Position) : Bool :=
  decide ((from_pos.to_tuple, to_pos.to_tuple) ∈ m.blocked_edges)

/-- `WallManager.remove_last_wall` -/
def WallManager.remove_last_wall (m : WallManager) : Option Wall × WallManager :=
  match m.walls_rev with
  | [] => (none, m)
  | w :: rest =>
      (some w, ⟨rest, m.blocked_edges \ w.get_blocked_edges,
                m.occupied_slots \ w.get_occupied_slots⟩)

/-- `WallManager.copy`: replays all walls, in placement order, into a fresh
manager. -/
def WallManager.copy (m : WallManager) : WallManager :=
  m.walls.foldl (fun acc w => (acc.add_wall w).2) WallManager.empty

/-! ## player.py -/

structure Player where
  player_id : Int
  name : String
  position : Position
  walls_remaining : Int
  goal_row : Int
deriving DecidableEq, Repr

/-- `Player.__post_init__`: id must be 1 or 2, `goal_row` is derived. -/
def Player.make (player_id : Int) (name : String) (position : Position)
    (walls_remaining : Int) : Option Player :=
  if player_id = 1 ∨ player_id = 2 then
    some ⟨player_id, name, position, walls_remaining,
          if player_id = 1 then Board.PLAYER1_GOAL_ROW else Board.PLAYER2_GOAL_ROW⟩
  else
    none

/-- `Player.move_to` -/
def Player.move_to (p : Player) (new_position : Position) : Player :=
  { p with position := new_position }

/-- `Player.use_wall` -/
def Player.use_wall (p : Player) : Bool × Player :=
  if p.walls_remaining > 0 then
    (true, { p with walls_remaining := p.walls_remaining - 1 })
  else
    (false, p)

/-- `Player.has_walls` -/
def Player.has_walls (p : Player) : Bool :=
  decide (p.walls_remaining > 0)

/-- `Player.has_reached_goal` -/
def Player.has_reached_goal (p : Player) : Bool :=
  decide (p.position.row = p.goal_row)

/-- `Player.create_player1` (always succeeds: id 1 is legal). -/
def Player.create_player1 (name : String) : Player :=
  ⟨1, name, Board.PLAYER1_START, 10, Board.PLAYER1_GOAL_ROW⟩

/-- `Player.create_player2` -/
def Player.create_player2 (name : String) : Player :=
  ⟨2, name, Board.PLAYER2_START, 10, Board.PLAYER2_GOAL_ROW⟩

/-! ## pathfinder.py

The Python BFS is a `while queue:` loop over a FIFO queue of
`(position, path)` pairs with a `visited` set of cell tuples, scanning the
four `Board.DIRECTIONS` in order and returning, at generation time, the
first path whose last cell reaches `goal_row`.  The inner `for` loop is
`Pathfinder.expand`; the outer `while` is `Pathfinder.bfsLoop`, driven by a
fuel argument.  The loop pops one queue entry per iteration and every
enqueue adds a fresh cell to `visited ⊆` the 81 board cells, so at most 81
iterations ever run; `find_shortest_path` passes fuel 100 (proved
sufficient below). -/

namespace Pathfinder

/-- One BFS queue entry: `(position, path)`. -/
abbrev Entry := Quoridor.Position × List Quoridor.Position

/-- Inner `for dr, dc in Board.DIRECTIONS` loop body of
`Pathfinder.find_shortest_path`: scans the remaining directions, threading
the visited set and the queue; returns early with the found path when a
generated cell reaches the goal row. -/
def expand (wm : WallManager) (goal_row : Int) (current : Position)
    (path : List Position) :
    List (Int × Int) → Finset (Int × Int) → List Entry →
    Option (List Position) × Finset (Int × Int) × List Entry
  | [], visited, queue => (none, visited, queue)
  | (dr, dc) :: ds, visited, queue =>
      let new_row := current.row + dr
      let new_col := current.col + dc
      if ¬ Board.is_valid_cell new_row new_col then
        expand wm goal_row current path ds visited queue
      else
        let new_pos : Position := ⟨new_row, new_col⟩
        if new_pos.to_tuple ∈ visited then
          expand wm goal_row current path ds visited queue
        else if wm.is_move_blocked current new_pos then
          expand wm goal_row current path ds visited queue
        else
          let new_path := path ++ [new_pos]
          if new_row = goal_row then
            (some new_path, visited, queue)
          else
            expand wm goal_row current path ds
              (insert new_pos.to_tuple visited) (queue ++ [(new_pos, new_path)])

/-- Outer `while queue:` loop of `Pathfinder.find_shortest_path`. -/
def bfsLoop (wm : WallManager) (goal_row : Int) :
    Nat → List Entry → Finset (Int × Int) → Option (List Position)
  | _, [], _ => none
  | 0, _ :: _, _ => none
  | fuel + 1, (current, path) :: rest, visited =>
      match expand wm goal_row current path Board.DIRECTIONS visited rest with
      | (some found, _, _) => some found
      | (none, visited', queue') => bfsLoop wm goal_row fuel queue' visited'

/-- Fuel passed to the BFS loop; at most 81 iterations can ever run. -/
def FUEL : Nat := 100

/-- `Pathfinder.find_shortest_path`.  The `other_player_pos` parameter is
accepted (as in the source) and never read. -/
def find_shortest_path (start : Position) (goal_row : Int)
    (wall_manager : WallManager) (other_player_pos : Option Position) :
    Option (List Position) :=
  if start.row = goal_row then
    some [start]
  else
    bfsLoop wall_manager goal_row FUEL [(start, [start])] {start.to_tuple}

/-- `Pathfinder.has_path_to_goal` -/
def has_path_to_goal (start : Position) (goal_row : Int)
    (wall_manager : WallManager) : Bool :=
  (find_shortest_path start goal_row wall_manager none).isSome

/-- `Pathfinder.get_shortest_distance` -/
def get_shortest_distance (start : Position) (goal_row : Int)
    (wall_manager : WallManager) : Int :=
  match find_shortest_path start goal_row wall_manager none with
  | none => -1
  | some path => (path.length : Int) - 1

/-- `Pathfinder.can_place_wall_safely` -/
def can_place_wall_safely (wall_manager : WallManager)
    (player1_pos : Position) (player1_goal : Int)
    (player2_pos : Position) (player2_goal : Int) : Bool :=
  let p1_has_path := has_path_to_goal player1_pos player1_goal wall_manager
  if ¬ p1_has_path then
    false
  else
    has_path_to_goal player2_pos player2_goal wall_manager

end Pathfinder

/-! ## move_validator.py -/

namespace MoveValidator

/-- `MoveValidator._get_jump_moves` -/
def get_jump_moves (current_pos opponent_pos : Position) (dr dc : Int)
    (wall_manager : WallManager) : List Position :=
  let jump_row := opponent_pos.row + dr
  let jump_col := opponent_pos.col + dc
  if Board.is_valid_cell jump_row jump_col ∧
      ¬ wall_manager.is_move_blocked opponent_pos ⟨jump_row, jump_col⟩ then
    [⟨jump_row, jump_col⟩]
  else
    let diagonals : List (Int × Int) :=
      if dr ≠ 0 then [(0, -1), (0, 1)] else [(-1, 0), (1, 0)]
    diagonals.filterMap fun (ddr, ddc) =>
      let diag_row := opponent_pos.row + ddr
      let diag_col := opponent_pos.col + ddc
      if Board.is_valid_cell diag_row diag_col ∧
          ¬ wall_manager.is_move_blocked opponent_pos ⟨diag_row, diag_col⟩ then
        some ⟨diag_row, diag_col⟩
      else
        none

/-- Contribution of one direction to `get_valid_pawn_moves`. -/
def moves_from_direction (player opponent : Player) (wall_manager : WallManager)
    (d : Int × Int) : List Position :=
  let new_row := player.position.row + d.1
  let new_col := player.position.col + d.2
  if ¬ Board.is_valid_cell new_row new_col then
    []
  else
    let new_pos : Position := ⟨new_row, new_col⟩
    if wall_manager.is_move_blocked player.position new_pos then
      []
    else if new_pos = opponent.position then
      get_jump_moves player.position opponent.position d.1 d.2 wall_manager
    else
      [new_pos]

/-- `MoveValidator.get_valid_pawn_moves`: the four directions, in order,
each appending its contribution. -/
def get_valid_pawn_moves (player opponent : Player)
    (wall_manager : WallManager) : List Position :=
  Board.DIRECTIONS.flatMap (moves_from_direction player opponent wall_manager)

/-- `MoveValidator.is_valid_pawn_move` -/
def is_valid_pawn_move (player opponent : Player) (target : Position)
    (wall_manager : WallManager) : Bool :=
  decide (target ∈ get_valid_pawn_moves player opponent wall_manager)

/-- `MoveValidator.is_valid_wall_placement` -/
def is_valid_wall_placement (wall : Wall) (player opponent : Player)
    (wall_manager : WallManager) : Bool :=
  if ¬ player.has_walls then
    false
  else if ¬ wall_manager.can_place_wall wall then
    false
  else
    let temp_manager := (wall_manager.copy.add_wall wall).2
    Pathfinder.can_place_wall_safely temp_manager
      player.position player.goal_row
      opponent.position opponent.goal_row

end MoveValidator

/-! ## game_state.py -/

inductive GameStatus where
  | in_progress
  | player1_win
  | player2_win
  | abandoned
deriving DecidableEq, Repr

def GameStatus.value : GameStatus → String
  | .in_progress => "in_progress"
  | .player1_win => "player1_win"
  | .player2_win => "player2_win"
  | .abandoned => "abandoned"

def GameStatus.fromString (s : String) : Option GameStatus :=
  if s = "in_progress" then some .in_progress
  else if s = "player1_win" then some .player1_win
  else if s = "player2_win" then some .player2_win
  else if s = "abandoned" then some .abandoned
  else none

inductive GameMode where
  | vs_ai
  | local_2p
deriving DecidableEq, Repr

def GameMode.value : GameMode → String
  | .vs_ai => "vs_ai"
  | .local_2p => "local_2p"

def GameMode.fromString (s : String) : Option GameMode :=
  if s = "vs_ai" then some .vs_ai
  else if s = "local_2p" then some .local_2p
  else none

/-- `GameState` (timestamps omitted, see module docstring). -/
structure GameState where
  game_id : String
  status : GameStatus
  current_turn : Int
  turn_count : Int
  winner : Option Int
  game_mode : GameMode
  player1 : Player
  player2 : Player
  wall_manager : WallManager
deriving DecidableEq

namespace GameState

/-- `GameState.__init__` (fails when the mode string is not a `GameMode`,
as the Python constructor raises there). -/
def init (game_id : String) (player1_name player2_name : String)
    (game_mode : String) : Option GameState := do
  let mode ← GameMode.fromString game_mode
  some { game_id := game_id
         status := .in_progress
         current_turn := 1
         turn_count := 0
         winner := none
         game_mode := mode
         player1 := Player.create_player1 player1_name
         player2 := Player.create_player2 player2_name
         wall_manager := WallManager.empty }

/-- `GameState.current_player` property -/
def current_player (s : GameState) : Player :=
  if s.current_turn = 1 then s.player1 else s.player2

/-- `GameState.opponent_player` property -/
def opponent_player (s : GameState) : Player :=
  if s.current_turn = 1 then s.player2 else s.player1

/-- Write back the mutated current player (Python mutates the aliased
`Player` object in place). -/
def set_current_player (s : GameState) (p : Player) : GameState :=
  if s.current_turn = 1 then { s with player1 := p } else { s with player2 := p }

/-- `GameState._switch_turn` -/
def switch_turn (s : GameState) : GameState :=
  { s with current_turn := if s.current_turn = 1 then 2 else 1,
           turn_count := s.turn_count + 1 }

/-- `GameState.move_pawn`.  Returns `(success, message)` and the
post-call state. -/
def move_pawn (s : GameState) (row col : Int) : Bool × String × GameState :=
  if s.status = .player1_win ∨ s.status = .player2_win then
    (false, "Game is already finished", s)
  else
    match Position.make row col with
    | none => (false, s!"Invalid position: ({row}, {col})", s)
    | some target =>
        if ¬ MoveValidator.is_valid_pawn_move s.current_player s.opponent_player
            target s.wall_manager then
          (false, "Invalid move", s)
        else
          let s₁ := s.set_current_player (s.current_player.move_to target)
          if s₁.current_player.has_reached_goal then
            let s₂ := { s₁ with
              winner := some s₁.current_turn,
              status := if s₁.current_turn = 1 then .player1_win else .player2_win }
            (true, s!"Player {s₂.current_turn} wins!", s₂)
          else
            (true, "Pawn moved successfully", s₁.switch_turn)

/-- `GameState.place_wall`. -/
def place_wall (s : GameState) (row col : Int) (orientation : String) :
    Bool × String × GameState :=
  if s.status = .player1_win ∨ s.status = .player2_win then
    (false, "Game is already finished", s)
  else if ¬ s.current_player.has_walls then
    (false, "No walls remaining", s)
  else
    match Orientation.fromString orientation with
    | none => (false, "Invalid wall parameters", s)
    | some wall_orientation =>
        match Wall.make row col wall_orientation with
        | none => (false, "Invalid wall parameters", s)
        | some wall =>
            if ¬ MoveValidator.is_valid_wall_placement wall s.current_player
                s.opponent_player s.wall_manager then
              (false, "Invalid wall placement", s)
            else
              let s₁ := { s with wall_manager := (s.wall_manager.add_wall wall).2 }
              let s₂ := s₁.set_current_player (s₁.current_player.use_wall).2
              (true, "Wall placed successfully", s₂.switch_turn)

/-- `GameState.copy` -/
def copy (s : GameState) : GameState :=
  { s with player1 := s.player1, player2 := s.player2,
           wall_manager := s.wall_manager.copy }

/-! Serialization (`to_dict` / `from_dict`), timestamps omitted. -/

structure PositionDict where
  row : Int
  col : Int
deriving DecidableEq, Repr

structure PlayerDict where
  name : String
  position : PositionDict
  walls_remaining : Int
  goal_row : Int
deriving DecidableEq, Repr

structure GameDict where
  game_id : String
  status : String
  game_mode : String
  current_turn : Int
  turn_count : Int
  player1 : PlayerDict
  player2 : PlayerDict
  walls : List WallDict
  winner : Option Int
deriving DecidableEq, Repr

/-- `GameState.to_dict` -/
def to_dict (s : GameState) : GameDict :=
  { game_id := s.game_id
    status := s.status.value
    game_mode := s.game_mode.value
    current_turn := s.current_turn
    turn_count := s.turn_count
    player1 := ⟨s.player1.name, ⟨s.player1.position.row, s.player1.position.col⟩,
                s.player1.walls_remaining, s.player1.goal_row⟩
    player2 := ⟨s.player2.name, ⟨s.player2.position.row, s.player2.position.col⟩,
                s.player2.walls_remaining, s.player2.goal_row⟩
    walls := s.wall_manager.walls.map Wall.to_dict
    winner := s.winner }

/-- `GameState.from_dict`.  Uncaught `ValueError`s of the Python code
(bad status/mode strings, out-of-range positions or walls, bad player id)
are the `none` results of the chained `Option` constructors. -/
def from_dict (d : GameDict) : Option GameState := do
  let status_str :=
    if d.status = "finished" then
      if d.winner = some 1 then "player1_win" else "player2_win"
    else d.status
  let status ← GameStatus.fromString status_str
  let mode ← GameMode.fromString d.game_mode
  let p1_pos ← Position.make d.player1.position.row d.player1.position.col
  let player1 ← Player.make 1 d.player1.name p1_pos d.player1.walls_remaining
  let p2_pos ← Position.make d.player2.position.row d.player2.position.col
  let player2 ← Player.make 2 d.player2.name p2_pos d.player2.walls_remaining
  let walls ← d.walls.mapM Wall.from_dict
  let wall_manager := walls.foldl (fun acc w => (acc.add_wall w).2) WallManager.empty
  some { game_id := d.game_id
         status := status
         current_turn := d.current_turn
         turn_count := d.turn_count
         winner := d.winner
         game_mode := mode
         player1 := player1
         player2 := player2
         wall_manager := wall_manager }

end GameState

/-- Reachable game states: an initial state, or the post-state of any
`move_pawn` / `place_wall` call (failed calls return the state unchanged). -/
inductive Reachable : GameState → Prop where
  | init : ∀ gid n1 n2 ms s, GameState.init gid n1 n2 ms = some s → Reachable s
  | move : ∀ s r c, Reachable s → Reachable (s.move_pawn r c).2.2
  | wall : ∀ s r c o, Reachable s → Reachable (s.place_wall r c o).2.2

/-!
# Theorems
-/

/-! ## Small state-machine lemmas -/

theorem set_current_player_current (s : GameState) (p : Player) :
    (s.set_current_player p).current_player = p := by
  unfold GameState.set_current_player GameState.current_player
  split <;> simp

theorem set_current_player_status (s : GameState) (p : Player) :
    (s.set_current_player p).status = s.status := by
  unfold GameState.set_current_player; split <;> rfl

theorem set_current_player_turn (s : GameState) (p : Player) :
    (s.set_current_player p).current_turn = s.current_turn := by
  unfold GameState.set_current_player; split <;> rfl

theorem set_current_player_count (s : GameState) (p : Player) :
    (s.set_current_player p).turn_count = s.turn_count := by
  unfold GameState.set_current_player; split <;> rfl

theorem set_current_player_wm (s : GameState) (p : Player) :
    (s.set_current_player p).wall_manager = s.wall_manager := by
  unfold GameState.set_current_player; split <;> rfl

/-- `move_to` preserves `goal_row`. -/
theorem move_to_goal_row (p : Player) (q : Position) :
    (p.move_to q).goal_row = p.goal_row := rfl

/-! ## C10 — `other_player_pos` is dead

`Pathfinder.find_shortest_path` accepts an `other_player_pos` argument and
never reads it: the body branches only on `start`, `goal_row` and the
wall manager. -/

/-- C10: for every start position, goal row, and WallManager,
`Pathfinder.find_shortest_path` returns the same result for every value of
its `other_player_pos` argument (including `none`); hence the reported
path and `get_shortest_distance` are independent of pawn positions. -/
theorem C10_other_player_pos_irrelevant (start : Position) (goal_row : Int)
    (wm : WallManager) (o₁ o₂ : Option Position) :
    Pathfinder.find_shortest_path start goal_row wm o₁ =
      Pathfinder.find_shortest_path start goal_row wm o₂ ∧
    Pathfinder.get_shortest_distance start goal_row wm =
      (match Pathfinder.find_shortest_path start goal_row wm o₁ with
       | none => -1
       | some path => (path.length : Int) - 1) :=
  ⟨rfl, rfl⟩

/-! ## C7 — rejected calls leave the state unchanged

In the embedding, every Python exception site inside `move_pawn` /
`place_wall` (`Position`/`Wall`/`Orientation` construction) is an
`Option`-valued constructor whose `none` case the caller catches, so the
two entry points are total functions: no exception crosses the public
boundary.  The theorem shows every `(false, _)` return leaves the whole
state — in particular `current_turn`, `turn_count`, both players'
positions, `walls_remaining`, and the placed-wall set — unchanged. -/

/-- C7: every failing `move_pawn` or `place_wall` call (out-of-range
coordinates, malformed orientation, walls exhausted, rule violation)
returns the state unchanged, and no exception escapes (the embedding is
total, with every fallible constructor handled). -/
theorem C7_failure_changes_nothing (s : GameState) :
    (∀ r c : Int, (s.move_pawn r c).1 = false → (s.move_pawn r c).2.2 = s) ∧
    (∀ (r c : Int) (o : String),
      (s.place_wall r c o).1 = false → (s.place_wall r c o).2.2 = s) := by
  constructor
  · intro r c
    unfold GameState.move_pawn
    split
    · intro _; rfl
    · split
      · intro _; rfl
      · split
        · intro _; rfl
        · simp [apply_ite]
  · intro r c o
    unfold GameState.place_wall
    split
    · intro _; rfl
    · split
      · intro _; rfl
      · split
        · intro _; rfl
        · split
          · intro _; rfl
          · split
            · intro _; rfl
            · simp

/-- A concrete fresh game (the payload of
`GameState.init "g" "P" "A" "vs_ai"`), used as input for witnesses. -/
def initialState : GameState :=
  { game_id := "g"
    status := .in_progress
    current_turn := 1
    turn_count := 0
    winner := none
    game_mode := .vs_ai
    player1 := Player.create_player1 "P"
    player2 := Player.create_player2 "A"
    wall_manager := WallManager.empty }

theorem initialState_init : GameState.init "g" "P" "A" "vs_ai" = some initialState := rfl

/-- C7 witness: a fresh game rejects the non-adjacent move `(6,4)` and a
malformed wall orientation, both leaving the state unchanged. -/
theorem C7_witness :
    (initialState.move_pawn 6 4).2.2 = initialState ∧
    (initialState.place_wall 0 0 "diagonal").2.2 = initialState :=
  ⟨(C7_failure_changes_nothing initialState).1 6 4 (by decide),
   (C7_failure_changes_nothing initialState).2 0 0 "diagonal" (by decide)⟩

/-! ## C2 — terminal-status gating

The source guards `move_pawn` / `place_wall` with
`if self.status in (GameStatus.PLAYER1_WIN, GameStatus.PLAYER2_WIN)` only:
a state whose status is `ABANDONED` passes the guard, so the claim as
stated (covering every non-`InProgress` status, including `Abandoned`)
fails on the code. -/

/-- A concrete abandoned game (fresh board, status `abandoned`). -/
def abandonedState : GameState :=
  { initialState with status := .abandoned }

/-- C2 counterexample: an `abandoned` state is not `in_progress`, yet
`move_pawn` returns success and moves player 1 from (8,4) to (7,4) —
refuting the claim that every non-`InProgress` status freezes the state. -/
theorem C2_counterexample :
    abandonedState.status ≠ .in_progress ∧
    (abandonedState.move_pawn 7 4).1 = true ∧
    (abandonedState.move_pawn 7 4).2.2.player1.position ≠
      abandonedState.player1.position ∧
    (abandonedState.move_pawn 7 4).2.2 ≠ abandonedState := by
  refine ⟨by decide, by decide, by decide, ?_⟩
  intro h
  have := congrArg (fun s => s.player1.position) h
  simp only at this
  exact absurd this (by decide)

/-- C2 (amended): for every GameState whose status is `player1_win` or
`player2_win`, every `move_pawn` and every `place_wall` call returns
failure and leaves the entire state unchanged.  (States with status
`abandoned` are NOT rejected by the code: the guard tests only the two
win statuses, as the counterexample shows.) -/
theorem C2_win_states_frozen (s : GameState)
    (h : s.status = .player1_win ∨ s.status = .player2_win) :
    (∀ r c : Int, (s.move_pawn r c).1 = false ∧ (s.move_pawn r c).2.2 = s) ∧
    (∀ (r c : Int) (o : String),
      (s.place_wall r c o).1 = false ∧ (s.place_wall r c o).2.2 = s) := by
  constructor
  · intro r c
    unfold GameState.move_pawn
    rw [if_pos h]
    exact ⟨rfl, rfl⟩
  · intro r c o
    unfold GameState.place_wall
    rw [if_pos h]
    exact ⟨rfl, rfl⟩

/-- C2 witness: a concrete finished game rejects a move and a wall. -/
theorem C2_witness :
    (({ initialState with status := .player1_win } : GameState).status = .player1_win ∨
      ({ initialState with status := .player1_win } : GameState).status = .player2_win) ∧
    (({ initialState with status := .player1_win } : GameState).move_pawn 7 4).2.2 =
      { initialState with status := .player1_win } ∧
    (({ initialState with status := .player1_win } : GameState).place_wall 4 4
        "horizontal").1 = false :=
  ⟨Or.inl rfl,
   ((C2_win_states_frozen _ (Or.inl rfl)).1 7 4).2,
   ((C2_win_states_frozen _ (Or.inl rfl)).2 4 4 "horizontal").1⟩

/-! ## C6 — win handling of `move_pawn`, turn switch of `place_wall` -/

/-- C6: on an in-progress state, a successful `move_pawn` whose target row
is the mover's goal row sets `winner` to the mover's id, sets the
corresponding win status, and does not switch the turn; a successful
`place_wall` leaves the status `in_progress` and always switches the
turn. -/
theorem C6_win_and_turn_switch (s : GameState) (h : s.status = .in_progress) :
    (∀ r c : Int, (s.move_pawn r c).1 = true → r = s.current_player.goal_row →
      (s.move_pawn r c).2.2.winner = some s.current_turn ∧
      (s.move_pawn r c).2.2.status =
        (if s.current_turn = 1 then GameStatus.player1_win else GameStatus.player2_win) ∧
      (s.move_pawn r c).2.2.current_turn = s.current_turn ∧
      (s.move_pawn r c).2.2.turn_count = s.turn_count) ∧
    (∀ (r c : Int) (o : String), (s.place_wall r c o).1 = true →
      (s.place_wall r c o).2.2.status = GameStatus.in_progress ∧
      (s.place_wall r c o).2.2.current_turn =
        (if s.current_turn = 1 then 2 else 1) ∧
      (s.place_wall r c o).2.2.turn_count = s.turn_count + 1) := by
  constructor
  · intro r c hsucc hr
    revert hsucc
    unfold GameState.move_pawn
    rw [if_neg (by simp [h])]
    rcases hp : Position.make r c with _ | target
    · intro hsucc; exact absurd hsucc (by simp)
    · have htarget : target = ⟨r, c⟩ := by
        unfold Position.make at hp
        by_cases hb : 0 ≤ r ∧ r < BOARD_SIZE ∧ 0 ≤ c ∧ c < BOARD_SIZE
        · rw [if_pos hb] at hp; exact (Option.some_inj.mp hp).symm
        · rw [if_neg hb] at hp; exact absurd hp (by simp)
      dsimp only
      by_cases hv : MoveValidator.is_valid_pawn_move s.current_player
          s.opponent_player target s.wall_manager
      · rw [if_neg (by simp [hv])]
        have hgoal : ((s.set_current_player
            (s.current_player.move_to target)).current_player).has_reached_goal = true := by
          rw [set_current_player_current]
          unfold Player.has_reached_goal Player.move_to
          simp [htarget, hr]
        intro _
        rw [if_pos hgoal]
        refine ⟨?_, ?_, ?_, ?_⟩ <;>
          simp [set_current_player_turn, set_current_player_count]
      · rw [if_pos (by simp [hv])]
        intro hsucc; exact absurd hsucc (by simp)
  · intro r c o hsucc
    revert hsucc
    unfold GameState.place_wall
    rw [if_neg (by simp [h])]
    by_cases hw : s.current_player.has_walls
    · rw [if_neg (by simp [hw])]
      rcases ho : Orientation.fromString o with _ | orient
      · intro hsucc; exact absurd hsucc (by simp)
      · dsimp only
        rcases hm : Wall.make r c orient with _ | wall
        · intro hsucc; exact absurd hsucc (by simp)
        · dsimp only
          by_cases hv : MoveValidator.is_valid_wall_placement wall s.current_player
              s.opponent_player s.wall_manager
          · rw [if_neg (by simp [hv])]
            intro _
            unfold GameState.switch_turn
            refine ⟨?_, ?_, ?_⟩ <;>
              simp [set_current_player_status, set_current_player_turn,
                set_current_player_count, h]
          · rw [if_pos (by simp [hv])]
            intro hsucc; exact absurd hsucc (by simp)
    · rw [if_pos (by simp [hw])]
      intro hsucc; exact absurd hsucc (by simp)

/-- A state one step from a player-1 win: player 1 at (1,4), player 2
parked at (5,5), no walls. -/
def nearWinState : GameState :=
  { initialState with
      player1 := { Player.create_player1 "P" with position := ⟨1, 4⟩ },
      player2 := { Player.create_player2 "A" with position := ⟨5, 5⟩ } }

/-- C6 witness: moving player 1 from (1,4) to its goal row sets winner 1,
status `player1_win`, and keeps the turn; placing a wall on a fresh game
keeps the game in progress and switches the turn. -/
theorem C6_witness :
    ((nearWinState.move_pawn 0 4).2.2.winner = some nearWinState.current_turn ∧
     (nearWinState.move_pawn 0 4).2.2.status =
       (if nearWinState.current_turn = 1 then GameStatus.player1_win
        else GameStatus.player2_win) ∧
     (nearWinState.move_pawn 0 4).2.2.current_turn = nearWinState.current_turn ∧
     (nearWinState.move_pawn 0 4).2.2.turn_count = nearWinState.turn_count) ∧
    ((initialState.place_wall 4 4 "horizontal").2.2.status = GameStatus.in_progress ∧
     (initialState.place_wall 4 4 "horizontal").2.2.current_turn =
       (if initialState.current_turn = 1 then 2 else 1) ∧
     (initialState.place_wall 4 4 "horizontal").2.2.turn_count =
       initialState.turn_count + 1) :=
  ⟨(C6_win_and_turn_switch nearWinState rfl).1 0 4 (by decide) (by decide),
   (C6_win_and_turn_switch initialState rfl).2 4 4 "horizontal" (by decide)⟩

/-! ## WallManager well-formedness -/

/-- Union of a function over a list of walls. -/
def wallsUnion {α : Type} [DecidableEq α] (f : Wall → Finset α) (ws : List Wall) :
    Finset α :=
  ws.foldr (fun w acc => f w ∪ acc) ∅

theorem mem_wallsUnion {α : Type} [DecidableEq α] (f : Wall → Finset α)
    (ws : List Wall) (x : α) :
    x ∈ wallsUnion f ws ↔ ∃ w ∈ ws, x ∈ f w := by
  induction ws with
  | nil => simp [wallsUnion]
  | cons w ws ih => simp [wallsUnion, Finset.mem_union] at ih ⊢; rw [ih]

/-- Well-formedness of a `WallManager`: the derived sets are exactly the
unions of the held walls' contributions, and the held walls' slot sets are
pairwise disjoint (the spec's "no manager exists with stale derived
state" plus the no-overlap invariant). -/
def WallManager.Invariant (m : WallManager) : Prop :=
  m.blocked_edges = wallsUnion Wall.get_blocked_edges m.walls_rev ∧
  m.occupied_slots = wallsUnion Wall.get_occupied_slots m.walls_rev ∧
  List.Pairwise (fun w₁ w₂ =>
    Disjoint w₁.get_occupied_slots w₂.get_occupied_slots) m.walls_rev

instance (m : WallManager) : Decidable m.Invariant := by
  unfold WallManager.Invariant; infer_instance

theorem invariant_empty : WallManager.empty.Invariant := by decide

/-- Walls already held have their slots inside `occupied_slots`. -/
theorem slots_subset_of_mem {m : WallManager} (hinv : m.Invariant) {w : Wall}
    (hw : w ∈ m.walls_rev) : w.get_occupied_slots ⊆ m.occupied_slots := by
  intro x hx
  rw [hinv.2.1, mem_wallsUnion]
  exact ⟨w, hw, hx⟩

/-- A successfully added wall is slot-disjoint from every wall already held. -/
theorem disjoint_of_can_place {m : WallManager} (hinv : m.Invariant) {w : Wall}
    (hcan : m.can_place_wall w = true) {w' : Wall} (hw' : w' ∈ m.walls_rev) :
    Disjoint w.get_occupied_slots w'.get_occupied_slots := by
  unfold WallManager.can_place_wall at hcan
  rw [decide_eq_true_eq] at hcan
  rw [Finset.disjoint_right]
  intro x hx hxw
  have hocc : x ∈ m.occupied_slots := slots_subset_of_mem hinv hw' hx
  have : x ∈ m.occupied_slots ∩ w.get_occupied_slots := Finset.mem_inter.mpr ⟨hocc, hxw⟩
  rw [hcan] at this
  exact absurd this (Finset.not_mem_empty x)

/-- `add_wall` preserves well-formedness. -/
theorem add_wall_invariant (m : WallManager) (w : Wall) (hinv : m.Invariant) :
    ((m.add_wall w).2).Invariant := by
  unfold WallManager.add_wall
  by_cases hcan : m.can_place_wall w = true
  · rw [if_pos hcan]
    refine ⟨?_, ?_, ?_⟩
    · show m.blocked_edges ∪ w.get_blocked_edges =
        wallsUnion Wall.get_blocked_edges (w :: m.walls_rev)
      rw [hinv.1]; unfold wallsUnion; simp [Finset.union_comm]
    · show m.occupied_slots ∪ w.get_occupied_slots =
        wallsUnion Wall.get_occupied_slots (w :: m.walls_rev)
      rw [hinv.2.1]; unfold wallsUnion; simp [Finset.union_comm]
    · exact List.Pairwise.cons (fun w' hw' => disjoint_of_can_place hinv hcan hw')
        hinv.2.2
  · rw [if_neg hcan]; exact hinv

/-- `remove_last_wall` preserves well-formedness.  (Needs the slot-to-edge
disjointness transfer proved below only for the edge set; stated after
that lemma.) -/
theorem edge_disjoint_of_slot_disjoint (w₁ w₂ : Wall)
    (h : Disjoint w₁.get_occupied_slots w₂.get_occupied_slots) :
    Disjoint w₁.get_blocked_edges w₂.get_blocked_edges := by
  rw [Finset.disjoint_left] at h ⊢
  intro e he₁ he₂
  obtain ⟨r₁, c₁, o₁⟩ := w₁
  obtain ⟨r₂, c₂, o₂⟩ := w₂
  cases o₁ <;> cases o₂
  · -- horizontal / horizontal: a shared severed edge forces a shared h-slot
    have k₁ : ((r₁, c₁, SlotKind.h) : Slot) ∉
        Wall.get_occupied_slots ⟨r₂, c₂, .horizontal⟩ :=
      h (by simp [Wall.get_occupied_slots])
    have k₂ : ((r₁, c₁ + 1, SlotKind.h) : Slot) ∉
        Wall.get_occupied_slots ⟨r₂, c₂, .horizontal⟩ :=
      h (by simp [Wall.get_occupied_slots])
    simp [Wall.get_occupied_slots, Prod.ext_iff] at k₁ k₂
    simp [Wall.get_blocked_edges, Prod.ext_iff] at he₁ he₂
    omega
  · -- horizontal / vertical: severed edges have different shapes
    simp [Wall.get_blocked_edges, Prod.ext_iff] at he₁ he₂
    omega
  · -- vertical / horizontal
    simp [Wall.get_blocked_edges, Prod.ext_iff] at he₁ he₂
    omega
  · -- vertical / vertical
    have k₁ : ((r₁, c₁, SlotKind.v) : Slot) ∉
        Wall.get_occupied_slots ⟨r₂, c₂, .vertical⟩ :=
      h (by simp [Wall.get_occupied_slots])
    have k₂ : ((r₁ + 1, c₁, SlotKind.v) : Slot) ∉
        Wall.get_occupied_slots ⟨r₂, c₂, .vertical⟩ :=
      h (by simp [Wall.get_occupied_slots])
    simp [Wall.get_occupied_slots, Prod.ext_iff] at k₁ k₂
    simp [Wall.get_blocked_edges, Prod.ext_iff] at he₁ he₂
    omega

/-- The head wall's severed edges are disjoint from the rest's union. -/
theorem head_edges_disjoint {w : Wall} {ws : List Wall}
    (hpw : List.Pairwise (fun w₁ w₂ =>
      Disjoint w₁.get_occupied_slots w₂.get_occupied_slots) (w :: ws)) :
    Disjoint w.get_blocked_edges (wallsUnion Wall.get_blocked_edges ws) := by
  rw [Finset.disjoint_right]
  intro e he hew
  rw [mem_wallsUnion] at he
  obtain ⟨w', hw', he'⟩ := he
  have hd := edge_disjoint_of_slot_disjoint w w' ((List.pairwise_cons.mp hpw).1 w' hw')
  exact absurd hew (Finset.disjoint_left.mp hd · he')

theorem head_slots_disjoint {w : Wall} {ws : List Wall}
    (hpw : List.Pairwise (fun w₁ w₂ =>
      Disjoint w₁.get_occupied_slots w₂.get_occupied_slots) (w :: ws)) :
    Disjoint w.get_occupied_slots (wallsUnion Wall.get_occupied_slots ws) := by
  rw [Finset.disjoint_right]
  intro x hx hxw
  rw [mem_wallsUnion] at hx
  obtain ⟨w', hw', hx'⟩ := hx
  have hd := (List.pairwise_cons.mp hpw).1 w' hw'
  exact absurd hxw (Finset.disjoint_left.mp hd · hx')

theorem remove_last_wall_invariant (m : WallManager) (hinv : m.Invariant) :
    ((m.remove_last_wall).2).Invariant := by
  unfold WallManager.remove_last_wall
  rcases hm : m.walls_rev with _ | ⟨w, rest⟩
  · exact hinv
  · have h1 := hinv.1
    have h2 := hinv.2.1
    have hpw := hinv.2.2
    rw [hm] at h1 h2 hpw
    refine ⟨?_, ?_, (List.pairwise_cons.mp hpw).2⟩
    · show m.blocked_edges \ w.get_blocked_edges =
        wallsUnion Wall.get_blocked_edges rest
      rw [h1]
      show (wallsUnion Wall.get_blocked_edges (w :: rest)) \ _ = _
      unfold wallsUnion
      simp only [List.foldr_cons]
      exact Finset.union_sdiff_cancel_left (head_edges_disjoint hpw)
    · show m.occupied_slots \ w.get_occupied_slots =
        wallsUnion Wall.get_occupied_slots rest
      rw [h2]
      show (wallsUnion Wall.get_occupied_slots (w :: rest)) \ _ = _
      unfold wallsUnion
      simp only [List.foldr_cons]
      exact Finset.union_sdiff_cancel_left (head_slots_disjoint hpw)

/-- A `WallManager` reachable through its public mutators. -/
inductive WMReach : WallManager → Prop where
  | empty : WMReach WallManager.empty
  | add : ∀ m w, WMReach m → WMReach (m.add_wall w).2
  | remove : ∀ m, WMReach m → WMReach (m.remove_last_wall).2

theorem WMReach.invariant {m : WallManager} (h : WMReach m) : m.Invariant := by
  induction h with
  | empty => exact invariant_empty
  | add m w _ ih => exact add_wall_invariant m w ih
  | remove m _ ih => exact remove_last_wall_invariant m ih

/-! ## C5 — the slot mechanism -/

/-- After a successful add of `w₁`, any wall whose slots meet `w₁`'s is
rejected. -/
theorem add_then_conflict (m : WallManager) (w₁ w₂ : Wall)
    (hsucc : (m.add_wall w₁).1 = true)
    (hint : w₁.get_occupied_slots ∩ w₂.get_occupied_slots ≠ ∅) :
    (((m.add_wall w₁).2).add_wall w₂).1 = false := by
  unfold WallManager.add_wall at hsucc ⊢
  by_cases hcan : m.can_place_wall w₁ = true
  · rw [if_pos hcan]
    dsimp only
    rw [if_neg]
    intro hcan₂
    unfold WallManager.can_place_wall at hcan₂
    rw [decide_eq_true_eq] at hcan₂
    apply hint
    rw [Finset.eq_empty_iff_forall_not_mem] at hcan₂ ⊢
    intro x hx
    rw [Finset.mem_inter] at hx
    exact hcan₂ x (Finset.mem_inter.mpr
      ⟨Finset.mem_union_right _ hx.1, hx.2⟩)
  · rw [if_neg hcan] at hsucc; exact absurd hsucc (by simp)

/-- C5: walls simultaneously held by a reachable WallManager have pairwise
disjoint `occupied_slots`; `add_wall` rejects, without mutating, exactly
the walls whose slots meet the occupied set; and this one test rejects an
identical duplicate, a one-unit collinear overlap (in either orientation),
and a perpendicular crossing through the same center. -/
theorem C5_slot_disjointness :
    (∀ m : WallManager, WMReach m →
      List.Pairwise (fun w₁ w₂ =>
        Disjoint w₁.get_occupied_slots w₂.get_occupied_slots) m.walls) ∧
    (∀ (m : WallManager) (w : Wall),
      ((m.add_wall w).1 = false ∧ (m.add_wall w).2 = m) ↔
        m.occupied_slots ∩ w.get_occupied_slots ≠ ∅) ∧
    (∀ (m : WallManager) (w : Wall), (m.add_wall w).1 = true →
      (((m.add_wall w).2).add_wall w).1 = false) ∧
    (∀ (m : WallManager) (r c : Int),
      ((m.add_wall ⟨r, c, .horizontal⟩).1 = true →
        (((m.add_wall ⟨r, c, .horizontal⟩).2).add_wall
          ⟨r, c + 1, .horizontal⟩).1 = false) ∧
      ((m.add_wall ⟨r, c, .vertical⟩).1 = true →
        (((m.add_wall ⟨r, c, .vertical⟩).2).add_wall
          ⟨r + 1, c, .vertical⟩).1 = false) ∧
      ((m.add_wall ⟨r, c, .horizontal⟩).1 = true →
        (((m.add_wall ⟨r, c, .horizontal⟩).2).add_wall
          ⟨r, c, .vertical⟩).1 = false)) := by
  refine ⟨?_, ?_, ?_, ?_⟩
  · intro m hm
    have hpw := hm.invariant.2.2
    unfold WallManager.walls
    rw [List.pairwise_reverse]
    exact hpw.imp fun h => Disjoint.symm h
  · intro m w
    unfold WallManager.add_wall WallManager.can_place_wall
    by_cases hcan : m.occupied_slots ∩ w.get_occupied_slots = ∅
    · rw [if_pos (by rw [decide_eq_true_eq]; exact hcan)]
      constructor
      · intro h; exact absurd h.1 (by simp)
      · intro h; exact absurd hcan h
    · rw [if_neg (by rw [decide_eq_true_eq]; exact hcan)]
      exact ⟨fun _ => hcan, fun _ => ⟨rfl, rfl⟩⟩
  · intro m w hsucc
    refine add_then_conflict m w w hsucc ?_
    obtain ⟨r, c, o⟩ := w
    have hmem : ((r, c, SlotKind.center) : Slot) ∈
        (Wall.get_occupied_slots ⟨r, c, o⟩) ∩ (Wall.get_occupied_slots ⟨r, c, o⟩) := by
      rw [Finset.mem_inter]
      cases o <;> exact ⟨by simp [Wall.get_occupied_slots], by simp [Wall.get_occupied_slots]⟩
    exact Finset.ne_empty_of_mem hmem
  · intro m r c
    refine ⟨fun hs => add_then_conflict m _ _ hs ?_,
            fun hs => add_then_conflict m _ _ hs ?_,
            fun hs => add_then_conflict m _ _ hs ?_⟩
    · have hmem : ((r, c + 1, SlotKind.h) : Slot) ∈
          (Wall.get_occupied_slots ⟨r, c, .horizontal⟩) ∩
            (Wall.get_occupied_slots ⟨r, c + 1, .horizontal⟩) :=
        Finset.mem_inter.mpr (by simp [Wall.get_occupied_slots])
      exact Finset.ne_empty_of_mem hmem
    · have hmem : ((r + 1, c, SlotKind.v) : Slot) ∈
          (Wall.get_occupied_slots ⟨r, c, .vertical⟩) ∩
            (Wall.get_occupied_slots ⟨r + 1, c, .vertical⟩) :=
        Finset.mem_inter.mpr (by simp [Wall.get_occupied_slots])
      exact Finset.ne_empty_of_mem hmem
    · have hmem : ((r, c, SlotKind.center) : Slot) ∈
          (Wall.get_occupied_slots ⟨r, c, .horizontal⟩) ∩
            (Wall.get_occupied_slots ⟨r, c, .vertical⟩) :=
        Finset.mem_inter.mpr (by simp [Wall.get_occupied_slots])
      exact Finset.ne_empty_of_mem hmem

/-- C5 witness: concrete managers exercising every conjunct at (0,0). -/
theorem C5_witness :
    List.Pairwise (fun w₁ w₂ =>
      Disjoint w₁.get_occupied_slots w₂.get_occupied_slots)
      ((WallManager.empty.add_wall ⟨0, 0, .horizontal⟩).2.add_wall
        ⟨5, 5, .vertical⟩).2.walls ∧
    (((WallManager.empty.add_wall ⟨0, 0, .horizontal⟩).1 = false ∧
      (WallManager.empty.add_wall ⟨0, 0, .horizontal⟩).2 = WallManager.empty) ↔
      WallManager.empty.occupied_slots ∩
        (Wall.get_occupied_slots ⟨0, 0, .horizontal⟩) ≠ ∅) ∧
    (((WallManager.empty.add_wall ⟨0, 0, .horizontal⟩).2).add_wall
      ⟨0, 0, .horizontal⟩).1 = false ∧
    (((WallManager.empty.add_wall ⟨0, 0, .horizontal⟩).2).add_wall
      ⟨0, 0 + 1, .horizontal⟩).1 = false ∧
    (((WallManager.empty.add_wall ⟨0, 0, .vertical⟩).2).add_wall
      ⟨0 + 1, 0, .vertical⟩).1 = false ∧
    (((WallManager.empty.add_wall ⟨0, 0, .horizontal⟩).2).add_wall
      ⟨0, 0, .vertical⟩).1 = false :=
  ⟨C5_slot_disjointness.1 _
    (WMReach.add _ _ (WMReach.add _ _ WMReach.empty)),
   C5_slot_disjointness.2.1 WallManager.empty ⟨0, 0, .horizontal⟩,
   C5_slot_disjointness.2.2.1 WallManager.empty ⟨0, 0, .horizontal⟩ (by decide),
   (C5_slot_disjointness.2.2.2 WallManager.empty 0 0).1 (by decide),
   (C5_slot_disjointness.2.2.2 WallManager.empty 0 0).2.1 (by decide),
   (C5_slot_disjointness.2.2.2 WallManager.empty 0 0).2.2 (by decide)⟩

/-! ## C8 — add then remove-last restores the manager -/

/-- C8: on a well-formed manager, a successful `add_wall w` followed by
`remove_last_wall` returns `w` and restores the manager — wall sequence,
severed-edge set, and occupied-slot set — exactly. -/
theorem C8_add_remove_roundtrip (m : WallManager) (w : Wall)
    (hinv : m.Invariant) (hadd : (m.add_wall w).1 = true) :
    ((m.add_wall w).2).remove_last_wall = (some w, m) := by
  unfold WallManager.add_wall at hadd ⊢
  by_cases hcan : m.can_place_wall w = true
  · rw [if_pos hcan]
    have hss : Disjoint m.occupied_slots w.get_occupied_slots := by
      unfold WallManager.can_place_wall at hcan
      rw [decide_eq_true_eq] at hcan
      exact Finset.disjoint_iff_inter_eq_empty.mpr hcan
    have hes : Disjoint m.blocked_edges w.get_blocked_edges := by
      rw [hinv.1, Finset.disjoint_left]
      intro e he hew
      rw [mem_wallsUnion] at he
      obtain ⟨w', hw', he'⟩ := he
      have hd := edge_disjoint_of_slot_disjoint w w'
        (disjoint_of_can_place hinv hcan hw')
      exact absurd he' (Finset.disjoint_left.mp hd hew)
    unfold WallManager.remove_last_wall
    dsimp only
    rw [Finset.union_sdiff_cancel_right hes, Finset.union_sdiff_cancel_right hss]
  · rw [if_neg hcan] at hadd; exact absurd hadd (by simp)

/-- C8 witness: adding a wall at (3,3) to the singleton manager holding
(0,0) and removing it restores the manager. -/
theorem C8_witness :
    (WallManager.empty.add_wall ⟨0, 0, .horizontal⟩).2.Invariant ∧
    (((WallManager.empty.add_wall ⟨0, 0, .horizontal⟩).2.add_wall
        ⟨3, 3, .vertical⟩).2).remove_last_wall =
      (some ⟨3, 3, .vertical⟩,
        (WallManager.empty.add_wall ⟨0, 0, .horizontal⟩).2) :=
  ⟨by decide,
   C8_add_remove_roundtrip _ ⟨3, 3, .vertical⟩ (by decide) (by decide)⟩

/-! ## Replay and copy of a well-formed manager -/

/-- Replaying a pairwise-disjoint wall list (in placement order) into a
fresh manager rebuilds exactly the canonical manager for that list. -/
theorem replay_list (ws : List Wall)
    (hpw : List.Pairwise (fun w₁ w₂ =>
      Disjoint w₁.get_occupied_slots w₂.get_occupied_slots) ws) :
    ws.reverse.foldl (fun acc w => (acc.add_wall w).2) WallManager.empty =
      ⟨ws, wallsUnion Wall.get_blocked_edges ws,
           wallsUnion Wall.get_occupied_slots ws⟩ := by
  induction ws with
  | nil => rfl
  | cons w ws ih =>
      rw [List.reverse_cons, List.foldl_append,
        ih (List.pairwise_cons.mp hpw).2]
      have hcan : (WallManager.mk ws (wallsUnion Wall.get_blocked_edges ws)
          (wallsUnion Wall.get_occupied_slots ws)).can_place_wall w = true := by
        unfold WallManager.can_place_wall
        rw [decide_eq_true_eq, ← Finset.disjoint_iff_inter_eq_empty]
        exact (head_slots_disjoint hpw).symm
      simp only [List.foldl_cons, List.foldl_nil]
      unfold WallManager.add_wall
      rw [if_pos hcan]
      dsimp only
      have he : wallsUnion Wall.get_blocked_edges ws ∪ w.get_blocked_edges =
          wallsUnion Wall.get_blocked_edges (w :: ws) := by
        unfold wallsUnion; simp [Finset.union_comm]
      have hs : wallsUnion Wall.get_occupied_slots ws ∪ w.get_occupied_slots =
          wallsUnion Wall.get_occupied_slots (w :: ws) := by
        unfold wallsUnion; simp [Finset.union_comm]
      rw [he, hs]

/-- `copy` of a well-formed manager is the manager itself. -/
theorem copy_eq (m : WallManager) (hinv : m.Invariant) : m.copy = m := by
  unfold WallManager.copy WallManager.walls
  rw [replay_list m.walls_rev hinv.2.2]
  obtain ⟨ws, be, os⟩ := m
  obtain ⟨h1, h2, _⟩ := hinv
  simp only at h1 h2
  rw [h1, h2]

/-! ## Well-formed game states and reachability -/

/-- The state facts the serialization round-trip and the no-full-block
invariant depend on: correct player ids and goal rows, in-bounds
positions, a well-formed wall manager, in-bounds walls. -/
def GameState.WF (s : GameState) : Prop :=
  s.player1.player_id = 1 ∧
  s.player1.goal_row = Board.PLAYER1_GOAL_ROW ∧
  s.player2.player_id = 2 ∧
  s.player2.goal_row = Board.PLAYER2_GOAL_ROW ∧
  s.player1.position.valid ∧
  s.player2.position.valid ∧
  s.wall_manager.Invariant ∧
  ∀ w ∈ s.wall_manager.walls_rev, Board.is_valid_wall_position w.row w.col = true

theorem WF_initial (gid n1 n2 ms : String) (s : GameState)
    (h : GameState.init gid n1 n2 ms = some s) : s.WF := by
  unfold GameState.init at h
  rcases hm : GameMode.fromString ms with _ | mode <;> rw [hm] at h
  · exact absurd h (by simp)
  · simp only [Option.bind_eq_bind, Option.some_bind, Option.some_inj] at h
    subst h
    refine ⟨rfl, rfl, rfl, rfl, ?_, ?_, invariant_empty, ?_⟩
    · show Board.PLAYER1_START.valid
      decide
    · show Board.PLAYER2_START.valid
      decide
    · intro w hw
      simp [WallManager.empty] at hw

/-- Positions produced by `Position.make` are in bounds. -/
theorem make_valid {r c : Int} {p : Position} (h : Position.make r c = some p) :
    p.valid := by
  unfold Position.make at h
  split at h
  · cases h; assumption
  · exact absurd h (by simp)

/-- Walls produced by `Wall.make` are in bounds. -/
theorem wall_make_valid {r c : Int} {o : Orientation} {w : Wall}
    (h : Wall.make r c o = some w) :
    Board.is_valid_wall_position w.row w.col = true := by
  unfold Wall.make at h
  split at h
  · cases h; assumption
  · exact absurd h (by simp)

theorem WF_set_current_moved {s : GameState} (h : s.WF) {target : Position}
    (hv : target.valid) :
    (s.set_current_player (s.current_player.move_to target)).WF := by
  obtain ⟨h1, h2, h3, h4, h5, h6, h7, h8⟩ := h
  unfold GameState.set_current_player GameState.current_player Player.move_to
  split <;> exact ⟨h1, h2, h3, h4, by simp_all, by simp_all, h7, h8⟩

theorem move_pawn_WF (s : GameState) (r c : Int) (h : s.WF) :
    ((s.move_pawn r c).2.2).WF := by
  unfold GameState.move_pawn
  split
  · exact h
  · rcases hp : Position.make r c with _ | target
    · exact h
    · dsimp only
      split
      · exact h
      · have hWF₁ := WF_set_current_moved h (make_valid hp)
        split
        · exact hWF₁
        · obtain ⟨h1, h2, h3, h4, h5, h6, h7, h8⟩ := hWF₁
          unfold GameState.switch_turn
          exact ⟨h1, h2, h3, h4, h5, h6, h7, h8⟩

theorem WF_set_current_used {s : GameState} (h : s.WF) :
    (s.set_current_player (s.current_player.use_wall).2).WF := by
  obtain ⟨h1, h2, h3, h4, h5, h6, h7, h8⟩ := h
  unfold GameState.set_current_player GameState.current_player Player.use_wall
  split <;> split <;> exact ⟨h1, h2, h3, h4, by simp_all, by simp_all, h7, h8⟩

theorem place_wall_WF (s : GameState) (r c : Int) (o : String) (h : s.WF) :
    ((s.place_wall r c o).2.2).WF := by
  unfold GameState.place_wall
  split
  · exact h
  · split
    · exact h
    · rcases ho : Orientation.fromString o with _ | orient
      · exact h
      · dsimp only
        rcases hw : Wall.make r c orient with _ | wall
        · exact h
        · dsimp only
          split
          · exact h
          · obtain ⟨h1, h2, h3, h4, h5, h6, h7, h8⟩ := h
            have h7' : ((s.wall_manager.add_wall wall).2).Invariant :=
              add_wall_invariant _ _ h7
            have h8' : ∀ w ∈ ((s.wall_manager.add_wall wall).2).walls_rev,
                Board.is_valid_wall_position w.row w.col = true := by
              unfold WallManager.add_wall
              split
              · intro w' hw'
                rcases List.mem_cons.mp hw' with h' | h'
                · subst h'; exact wall_make_valid hw
                · exact h8 w' h'
              · exact h8
            have hmid : (GameState.mk s.game_id s.status s.current_turn
                s.turn_count s.winner s.game_mode s.player1 s.player2
                ((s.wall_manager.add_wall wall).2)).WF :=
              ⟨h1, h2, h3, h4, h5, h6, h7', h8'⟩
            have hset := WF_set_current_used hmid
            obtain ⟨g1, g2, g3, g4, g5, g6, g7, g8⟩ := hset
            unfold GameState.switch_turn
            exact ⟨g1, g2, g3, g4, g5, g6, g7, g8⟩

/-- Every reachable state is well-formed. -/
theorem Reachable.wf {s : GameState} (h : Reachable s) : s.WF := by
  induction h with
  | init gid n1 n2 ms s hs => exact WF_initial gid n1 n2 ms s hs
  | move s r c _ ih => exact move_pawn_WF s r c ih
  | wall s r c o _ ih => exact place_wall_WF s r c o ih

/-! ## C9 — serialization round-trip -/

theorem status_value_ne_finished (st : GameStatus) : st.value ≠ "finished" := by
  cases st <;> decide

theorem status_roundtrip (st : GameStatus) :
    GameStatus.fromString st.value = some st := by
  cases st <;> decide

theorem mode_roundtrip (gm : GameMode) :
    GameMode.fromString gm.value = some gm := by
  cases gm <;> decide

theorem orientation_roundtrip (o : Orientation) :
    Orientation.fromString o.value = some o := by
  cases o <;> decide

theorem position_roundtrip (p : Position) (h : p.valid) :
    Position.make p.row p.col = some p := by
  unfold Position.make
  rw [if_pos (show 0 ≤ p.row ∧ p.row < BOARD_SIZE ∧ 0 ≤ p.col ∧ p.col < BOARD_SIZE from h)]

theorem wall_roundtrip (w : Wall)
    (hv : Board.is_valid_wall_position w.row w.col = true) :
    Wall.from_dict w.to_dict = some w := by
  unfold Wall.from_dict Wall.to_dict
  simp only [orientation_roundtrip, Option.bind_eq_bind, Option.some_bind]
  unfold Wall.make
  rw [if_pos hv]

theorem walls_mapM (ws : List Wall)
    (hv : ∀ w ∈ ws, Board.is_valid_wall_position w.row w.col = true) :
    (ws.map Wall.to_dict).mapM Wall.from_dict = some ws := by
  induction ws with
  | nil => rfl
  | cons w ws ih =>
      rw [List.map_cons, List.mapM_cons, wall_roundtrip w (hv w (by simp)),
        ih (fun w' hw' => hv w' (by simp [hw']))]
      rfl

theorem player_roundtrip1 (p : Player) (hid : p.player_id = 1)
    (hgoal : p.goal_row = Board.PLAYER1_GOAL_ROW) :
    Player.make 1 p.name p.position p.walls_remaining = some p := by
  unfold Player.make
  rw [if_pos (Or.inl rfl)]
  obtain ⟨pid, nm, pos, wr, gr⟩ := p
  simp only at hid hgoal
  subst hid; subst hgoal
  simp

theorem player_roundtrip2 (p : Player) (hid : p.player_id = 2)
    (hgoal : p.goal_row = Board.PLAYER2_GOAL_ROW) :
    Player.make 2 p.name p.position p.walls_remaining = some p := by
  unfold Player.make
  rw [if_pos (Or.inr rfl)]
  obtain ⟨pid, nm, pos, wr, gr⟩ := p
  simp only at hid hgoal
  subst hid; subst hgoal
  rw [if_neg (by decide)]

/-- C9: serializing a reachable state and deserializing it reproduces the
state exactly — positions, turn fields, ordered wall list (with its
blocking sets), status, and winner. -/
theorem C9_serialization_roundtrip (s : GameState) (h : Reachable s) :
    GameState.from_dict s.to_dict = some s := by
  obtain ⟨h1, h2, h3, h4, h5, h6, h7, h8⟩ := h.wf
  have hwallsv : ∀ w ∈ s.wall_manager.walls,
      Board.is_valid_wall_position w.row w.col = true := by
    intro w hw
    exact h8 w (List.mem_reverse.mp hw)
  have hfold : s.wall_manager.walls.foldl
      (fun acc w => (acc.add_wall w).2) WallManager.empty = s.wall_manager := by
    have := copy_eq s.wall_manager h7
    unfold WallManager.copy at this
    exact this
  unfold GameState.from_dict GameState.to_dict
  dsimp only
  rw [if_neg (status_value_ne_finished s.status), status_roundtrip]
  simp only [Option.bind_eq_bind, Option.some_bind]
  rw [mode_roundtrip]
  simp only [Option.some_bind]
  rw [position_roundtrip s.player1.position h5]
  simp only [Option.some_bind]
  rw [player_roundtrip1 s.player1 h1 h2]
  simp only [Option.some_bind]
  rw [position_roundtrip s.player2.position h6]
  simp only [Option.some_bind]
  rw [player_roundtrip2 s.player2 h3 h4]
  simp only [Option.some_bind]
  rw [walls_mapM s.wall_manager.walls hwallsv]
  simp only [Option.some_bind]
  rw [hfold]

/-- C9 witness: the round-trip at a concrete reachable state (a fresh
game after one wall placement). -/
theorem C9_witness :
    GameState.from_dict
      (GameState.to_dict (initialState.place_wall 4 4 "horizontal").2.2) =
      some (initialState.place_wall 4 4 "horizontal").2.2 :=
  C9_serialization_roundtrip _
    (Reachable.wall _ 4 4 "horizontal"
      (Reachable.init "g" "P" "A" "vs_ai" _ initialState_init))

/-! ## C4 — jump rules -/

/-- The perpendicular offsets scanned by `_get_jump_moves` when the
straight jump is unavailable. -/
def diagOffsets (dr : Int) : List (Int × Int) :=
  if dr ≠ 0 then [(0, -1), (0, 1)] else [(-1, 0), (1, 0)]

theorem mem_valid_pawn_moves (player opponent : Player) (wm : WallManager)
    (q : Position) :
    q ∈ MoveValidator.get_valid_pawn_moves player opponent wm ↔
    ∃ d' ∈ Board.DIRECTIONS,
      q ∈ MoveValidator.moves_from_direction player opponent wm d' := by
  unfold MoveValidator.get_valid_pawn_moves
  exact List.mem_flatMap

/-- Anything contributed by one direction is either the direct step (when
it is not the opponent's cell) or comes from the jump logic (when it is). -/
theorem mem_moves_from_direction {player opponent : Player} {wm : WallManager}
    {d' : Int × Int} {q : Position}
    (h : q ∈ MoveValidator.moves_from_direction player opponent wm d') :
    (q = ⟨player.position.row + d'.1, player.position.col + d'.2⟩ ∧
      q ≠ opponent.position) ∨
    (opponent.position =
        ⟨player.position.row + d'.1, player.position.col + d'.2⟩ ∧
      q ∈ MoveValidator.get_jump_moves player.position opponent.position
        d'.1 d'.2 wm) := by
  unfold MoveValidator.moves_from_direction at h
  dsimp only at h
  split at h
  · exact absurd h (by simp)
  · split at h
    · exact absurd h (by simp)
    · split at h
      · rename_i heq
        exact Or.inr ⟨heq ▸ rfl, h⟩
      · rename_i hne
        rcases List.mem_singleton.mp h with rfl
        exact Or.inl ⟨rfl, hne⟩

/-- Every jump result is the straight-jump cell or one of the two
perpendicular cells. -/
theorem mem_get_jump_moves {P O : Position} {dr dc : Int} {wm : WallManager}
    {q : Position}
    (h : q ∈ MoveValidator.get_jump_moves P O dr dc wm) :
    q = ⟨O.row + dr, O.col + dc⟩ ∨
    ∃ dd ∈ diagOffsets dr, q = ⟨O.row + dd.1, O.col + dd.2⟩ := by
  unfold MoveValidator.get_jump_moves at h
  dsimp only at h
  split at h
  · exact Or.inl (List.mem_singleton.mp h)
  · right
    rw [List.mem_filterMap] at h
    obtain ⟨dd, hdd, hq⟩ := h
    refine ⟨dd, ?_, ?_⟩
    · unfold diagOffsets
      obtain ⟨d1, d2⟩ := dd
      exact hdd
    · split at hq
      · cases hq; rfl
      · exact absurd hq (by simp)

/-- When the opponent stands one (unblocked, in-bounds) step away in
direction `d`, the contribution of direction `d` is exactly the jump
list. -/
theorem moves_from_direction_jump {player opponent : Player} {wm : WallManager}
    {d : Int × Int}
    (hOr : opponent.position.row = player.position.row + d.1)
    (hOc : opponent.position.col = player.position.col + d.2)
    (hOvalid : Board.is_valid_cell opponent.position.row
      opponent.position.col = true)
    (hfree : wm.is_move_blocked player.position opponent.position = false) :
    MoveValidator.moves_from_direction player opponent wm d =
      MoveValidator.get_jump_moves player.position opponent.position
        d.1 d.2 wm := by
  have hO : (⟨player.position.row + d.1, player.position.col + d.2⟩ : Position) =
      opponent.position := by
    have heta : opponent.position =
        ⟨opponent.position.row, opponent.position.col⟩ := rfl
    rw [heta, hOr, hOc]
  unfold MoveValidator.moves_from_direction
  dsimp only
  rw [if_neg (by rw [← hOr, ← hOc]; simp [hOvalid])]
  rw [if_neg (by rw [hO, hfree]; simp), if_pos hO]

theorem directions_components {d : Int × Int} (h : d ∈ Board.DIRECTIONS) :
    (d.1 = -1 ∧ d.2 = 0) ∨ (d.1 = 1 ∧ d.2 = 0) ∨
    (d.1 = 0 ∧ d.2 = -1) ∨ (d.1 = 0 ∧ d.2 = 1) := by
  simp only [Board.DIRECTIONS, List.mem_cons, List.mem_singleton,
    List.not_mem_nil, or_false] at h
  rcases h with rfl | rfl | rfl | rfl <;> simp

theorem diagOffsets_components {d1 : Int} {dd : Int × Int}
    (h : dd ∈ diagOffsets d1) :
    (d1 ≠ 0 ∧ dd.1 = 0 ∧ (dd.2 = -1 ∨ dd.2 = 1)) ∨
    (d1 = 0 ∧ dd.2 = 0 ∧ (dd.1 = -1 ∨ dd.1 = 1)) := by
  unfold diagOffsets at h
  split at h <;> rename_i hc <;>
    simp only [List.mem_cons, List.mem_singleton, List.not_mem_nil,
      or_false] at h
  · rcases h with rfl | rfl <;> simp [hc]
  · rcases h with rfl | rfl <;> simp_all

theorem pos_components {a b c d : Int} (h : (⟨a, b⟩ : Position) = ⟨c, d⟩) :
    a = c ∧ b = d := by
  injection h with h1 h2
  exact ⟨h1, h2⟩

/-- Membership in the diagonal fallback of `_get_jump_moves`. -/
theorem mem_jump_else {P O : Position} {d : Int × Int} {wm : WallManager}
    {q : Position}
    (hns : ¬(Board.is_valid_cell (O.row + d.1) (O.col + d.2) = true ∧
      wm.is_move_blocked O ⟨O.row + d.1, O.col + d.2⟩ = false)) :
    (q ∈ MoveValidator.get_jump_moves P O d.1 d.2 wm ↔
      ∃ dd ∈ diagOffsets d.1,
        Board.is_valid_cell (O.row + dd.1) (O.col + dd.2) = true ∧
        wm.is_move_blocked O ⟨O.row + dd.1, O.col + dd.2⟩ = false ∧
        q = ⟨O.row + dd.1, O.col + dd.2⟩) := by
  unfold MoveValidator.get_jump_moves
  dsimp only
  rw [if_neg (by
    intro hcontra
    exact hns ⟨hcontra.1, by
      rcases hb : wm.is_move_blocked O ⟨O.row + d.1, O.col + d.2⟩
      · rfl
      · exact absurd hb hcontra.2⟩)]
  rw [List.mem_filterMap]
  constructor
  · rintro ⟨dd, hdd, hq⟩
    split at hq
    · rename_i hcond
      cases hq
      refine ⟨dd, ?_, hcond.1, ?_, rfl⟩
      · unfold diagOffsets; obtain ⟨x, y⟩ := dd; exact hdd
      · rcases hb : wm.is_move_blocked O ⟨O.row + dd.1, O.col + dd.2⟩
        · rfl
        · exact absurd hb hcond.2
    · exact absurd hq (by simp)
  · rintro ⟨dd, hdd, hv, hb, rfl⟩
    refine ⟨dd, ?_, ?_⟩
    · unfold diagOffsets at hdd; obtain ⟨x, y⟩ := dd; exact hdd
    · rw [if_pos ⟨hv, by simp [hb]⟩]

/-- C4: when the mover is orthogonally adjacent to the opponent (edge not
severed), the jump handling is: if the straight-jump cell behind the
opponent is in bounds and its edge from the opponent's cell is unsevered,
it is the only jump result and no diagonal is offered; otherwise the two
perpendicular cells are offered exactly when in bounds and unsevered from
the opponent's cell; and the opponent's cell itself is never a move. -/
theorem C4_jump_rules (player opponent : Player) (wm : WallManager)
    (d : Int × Int) (hd : d ∈ Board.DIRECTIONS)
    (hOr : opponent.position.row = player.position.row + d.1)
    (hOc : opponent.position.col = player.position.col + d.2)
    (hOvalid : Board.is_valid_cell opponent.position.row
      opponent.position.col = true)
    (hfree : wm.is_move_blocked player.position opponent.position = false) :
    ((Board.is_valid_cell (opponent.position.row + d.1)
        (opponent.position.col + d.2) = true ∧
      wm.is_move_blocked opponent.position
        ⟨opponent.position.row + d.1, opponent.position.col + d.2⟩ = false) →
      MoveValidator.get_jump_moves player.position opponent.position
          d.1 d.2 wm =
        [⟨opponent.position.row + d.1, opponent.position.col + d.2⟩] ∧
      (⟨opponent.position.row + d.1, opponent.position.col + d.2⟩ : Position) ∈
        MoveValidator.get_valid_pawn_moves player opponent wm ∧
      ∀ dd ∈ diagOffsets d.1,
        (⟨opponent.position.row + dd.1, opponent.position.col + dd.2⟩ :
            Position) ∉
          MoveValidator.get_valid_pawn_moves player opponent wm) ∧
    (¬(Board.is_valid_cell (opponent.position.row + d.1)
        (opponent.position.col + d.2) = true ∧
      wm.is_move_blocked opponent.position
        ⟨opponent.position.row + d.1, opponent.position.col + d.2⟩ = false) →
      (⟨opponent.position.row + d.1, opponent.position.col + d.2⟩ : Position) ∉
        MoveValidator.get_valid_pawn_moves player opponent wm ∧
      ∀ dd ∈ diagOffsets d.1,
        ((⟨opponent.position.row + dd.1, opponent.position.col + dd.2⟩ :
            Position) ∈
          MoveValidator.get_valid_pawn_moves player opponent wm ↔
          Board.is_valid_cell (opponent.position.row + dd.1)
            (opponent.position.col + dd.2) = true ∧
          wm.is_move_blocked opponent.position
            ⟨opponent.position.row + dd.1, opponent.position.col + dd.2⟩ =
            false)) ∧
    opponent.position ∉
      MoveValidator.get_valid_pawn_moves player opponent wm := by
  have hdc := directions_components hd
  -- every jump result is a legal move (direction d contributes the jump list)
  have hjump_mem : ∀ q : Position,
      q ∈ MoveValidator.get_jump_moves player.position opponent.position
        d.1 d.2 wm →
      q ∈ MoveValidator.get_valid_pawn_moves player opponent wm := by
    intro q hq
    refine (mem_valid_pawn_moves player opponent wm q).mpr ⟨d, hd, ?_⟩
    rw [moves_from_direction_jump hOr hOc hOvalid hfree]
    exact hq
  -- every legal move is a direct step of some direction, or a jump result
  have hdecomp : ∀ q : Position,
      q ∈ MoveValidator.get_valid_pawn_moves player opponent wm →
      (∃ d' ∈ Board.DIRECTIONS,
        q = ⟨player.position.row + d'.1, player.position.col + d'.2⟩ ∧
        q ≠ opponent.position) ∨
      q ∈ MoveValidator.get_jump_moves player.position opponent.position
        d.1 d.2 wm := by
    intro q hq
    obtain ⟨d', hd', hq'⟩ := (mem_valid_pawn_moves player opponent wm q).mp hq
    rcases mem_moves_from_direction hq' with ⟨heq, hne⟩ | ⟨hOeq, hjump⟩
    · exact Or.inl ⟨d', hd', heq, hne⟩
    · have h1 := congrArg Position.row hOeq
      have h2 := congrArg Position.col hOeq
      dsimp only at h1 h2
      have e1 : d'.1 = d.1 := by omega
      have e2 : d'.2 = d.2 := by omega
      rw [e1, e2] at hjump
      exact Or.inr hjump
  refine ⟨?_, ?_, ?_⟩
  · rintro ⟨hg1, hg2⟩
    have hjeq : MoveValidator.get_jump_moves player.position opponent.position
        d.1 d.2 wm =
        [⟨opponent.position.row + d.1, opponent.position.col + d.2⟩] := by
      unfold MoveValidator.get_jump_moves
      dsimp only
      rw [if_pos ⟨hg1, by simp [hg2]⟩]
    refine ⟨hjeq, hjump_mem _ (by rw [hjeq]; exact List.mem_singleton.mpr rfl), ?_⟩
    intro dd hdd hmem
    have hddc := diagOffsets_components hdd
    rcases hdecomp _ hmem with ⟨d', hd', heq, _⟩ | hj
    · have hd'c := directions_components hd'
      have hcomp := pos_components heq
      obtain ⟨c1, c2⟩ := hcomp
      omega
    · rw [hjeq] at hj
      have hcomp := pos_components (List.mem_singleton.mp hj)
      obtain ⟨c1, c2⟩ := hcomp
      omega
  · intro hns
    constructor
    · intro hmem
      rcases hdecomp _ hmem with ⟨d', hd', heq, _⟩ | hj
      · have hd'c := directions_components hd'
        have hcomp := pos_components heq
        obtain ⟨c1, c2⟩ := hcomp
        omega
      · rcases (mem_jump_else hns).mp hj with ⟨dd, hdd, _, _, heq⟩
        have hddc := diagOffsets_components hdd
        have hcomp := pos_components heq
        obtain ⟨c1, c2⟩ := hcomp
        omega
    · intro dd hdd
      have hddc := diagOffsets_components hdd
      constructor
      · intro hmem
        rcases hdecomp _ hmem with ⟨d', hd', heq, _⟩ | hj
        · have hd'c := directions_components hd'
          have hcomp := pos_components heq
          obtain ⟨c1, c2⟩ := hcomp
          omega
        · rcases (mem_jump_else hns).mp hj with ⟨dd', hdd', hv', hb', heq⟩
          have hdd'c := diagOffsets_components hdd'
          have hcomp := pos_components heq
          obtain ⟨c1, c2⟩ := hcomp
          have e1 : dd'.1 = dd.1 := by omega
          have e2 : dd'.2 = dd.2 := by omega
          rw [e1, e2] at hv' hb'
          exact ⟨hv', hb'⟩
      · rintro ⟨hv, hb⟩
        exact hjump_mem _ ((mem_jump_else hns).mpr ⟨dd, hdd, hv, hb, rfl⟩)
  · intro hmem
    rcases hdecomp _ hmem with ⟨d', hd', heq, hne⟩ | hj
    · exact hne rfl
    · rcases mem_get_jump_moves hj with heq | ⟨dd, hdd, heq⟩
      · have h1 := congrArg Position.row heq
        have h2 := congrArg Position.col heq
        dsimp only at h1 h2
        omega
      · have hddc := diagOffsets_components hdd
        have h1 := congrArg Position.row heq
        have h2 := congrArg Position.col heq
        dsimp only at h1 h2
        omega

/-- Player 1 one step below the opponent, for the jump witness. -/
def jumpP1 : Player := { Player.create_player1 "P" with position := ⟨2, 4⟩ }

/-- Player 2 adjacent above, for the jump witness. -/
def jumpP2 : Player := { Player.create_player2 "A" with position := ⟨1, 4⟩ }

/-- C4 witness: with pawns at (2,4) and (1,4) on an empty board, the
straight jump is the single jump result and the opponent's cell is not a
move. -/
theorem C4_witness :
    MoveValidator.get_jump_moves jumpP1.position jumpP2.position
        ((-1 : Int), (0 : Int)).1 ((-1 : Int), (0 : Int)).2 WallManager.empty =
      [⟨jumpP2.position.row + ((-1 : Int), (0 : Int)).1,
        jumpP2.position.col + ((-1 : Int), (0 : Int)).2⟩] ∧
    jumpP2.position ∉
      MoveValidator.get_valid_pawn_moves jumpP1 jumpP2 WallManager.empty :=
  have h := C4_jump_rules jumpP1 jumpP2 WallManager.empty ((-1 : Int), (0 : Int))
    (by decide) (by decide) (by decide) (by decide) (by decide)
  ⟨(h.1 (by decide)).1, h.2.2⟩

/-! ## The board graph and its paths

Specification-side notions for the BFS claims: the directed graph on board
cells whose edges are the four unit steps minus the wall manager's severed
edges, and paths in it. -/

/-- One admissible step: a unit move in one of the four directions, to an
in-bounds cell, whose directed edge is not severed. -/
def adjStep (wm : WallManager) (u v : Position) : Prop :=
  (∃ d ∈ Board.DIRECTIONS, v = ⟨u.row + d.1, u.col + d.2⟩) ∧
  Board.is_valid_cell v.row v.col = true ∧
  wm.is_move_blocked u v = false

/-- `σ` is a path from `start` in the severed-edge graph (nonempty,
starting at `start`, consecutive cells admissible steps). -/
def PathFrom (wm : WallManager) (start : Position) (σ : List Position) : Prop :=
  σ.head? = some start ∧ σ.Chain' (adjStep wm)

/-- `σ` is a path from `start` whose last cell lies on the goal row. -/
def GoalPathFrom (wm : WallManager) (start : Position) (goal : Int)
    (σ : List Position) : Prop :=
  PathFrom wm start σ ∧ ∃ g, σ.getLast? = some g ∧ g.row = goal

theorem to_tuple_inj {p q : Position} (h : p.to_tuple = q.to_tuple) : p = q := by
  obtain ⟨a, b⟩ := p
  obtain ⟨c, d⟩ := q
  unfold Position.to_tuple at h
  injection h with h1 h2
  dsimp only at h1 h2
  simp [h1, h2]

/-- The 81 board cells as a finite set. -/
def validCells : Finset (Int × Int) :=
  (Finset.Icc (0 : Int) 8) ×ˢ (Finset.Icc (0 : Int) 8)

theorem validCells_card : validCells.card = 81 := by
  unfold validCells
  rw [Finset.card_product, Int.card_Icc]
  rfl

theorem mem_validCells {t : Int × Int} :
    t ∈ validCells ↔ Board.is_valid_cell t.1 t.2 = true := by
  unfold validCells Board.is_valid_cell BOARD_SIZE
  rw [Finset.mem_product, Finset.mem_Icc, Finset.mem_Icc, decide_eq_true_eq]
  omega

theorem path_ne_nil {wm start} {σ : List Position} (h : PathFrom wm start σ) :
    σ ≠ [] := by
  intro hnil
  rw [hnil] at h
  exact absurd h.1 (by simp)

/-- Extending a path by one admissible step. -/
theorem path_snoc {wm start} {σ : List Position} {u v : Position}
    (h : PathFrom wm start σ) (hu : σ.getLast? = some u)
    (hstep : adjStep wm u v) :
    PathFrom wm start (σ ++ [v]) ∧ (σ ++ [v]).getLast? = some v := by
  refine ⟨⟨?_, ?_⟩, by simp⟩
  · rw [List.head?_append_of_ne_nil _ (path_ne_nil h)]
    exact h.1
  · rw [List.chain'_append]
    refine ⟨h.2, by simp, ?_⟩
    intro x hx y hy
    rw [hu] at hx
    cases hx
    simp only [List.head?_cons, Option.some_inj] at hy
    cases hy
    exact hstep

/-- Splitting the last step off a path of length at least two. -/
theorem path_unsnoc {wm start} {σ : List Position}
    (h : PathFrom wm start σ) (hlen : 2 ≤ σ.length) :
    PathFrom wm start σ.dropLast ∧
    σ.dropLast.length + 1 = σ.length ∧
    ∃ u v, σ.dropLast.getLast? = some u ∧ σ.getLast? = some v ∧
      adjStep wm u v := by
  have hne : σ ≠ [] := path_ne_nil h
  have hdne : σ.dropLast ≠ [] := by
    intro hnil
    have := congrArg List.length hnil
    rw [List.length_dropLast] at this
    simp at this
    omega
  have hsplit : σ.dropLast ++ [σ.getLast hne] = σ :=
    List.dropLast_append_getLast hne
  have hchain := h.2
  rw [← hsplit, List.chain'_append] at hchain
  obtain ⟨hc1, _, hbridge⟩ := hchain
  refine ⟨⟨?_, hc1⟩, ?_, ?_⟩
  · have := h.1
    rw [← hsplit, List.head?_append_of_ne_nil _ hdne] at this
    exact this
  · rw [List.length_dropLast]
    omega
  · refine ⟨σ.dropLast.getLast hdne, σ.getLast hne,
      List.getLast?_eq_getLast _ hdne, List.getLast?_eq_getLast _ hne, ?_⟩
    exact hbridge _ (List.getLast?_eq_getLast _ hdne) _ (by simp)

/-- Any path through a goal-row cell has a prefix that is a goal path with
goal-free interior and no greater length. -/
theorem goal_prefix {wm : WallManager} {start : Position} {goal : Int} :
    ∀ (n : Nat) (σ : List Position), σ.length ≤ n →
      PathFrom wm start σ →
      (∃ g ∈ σ, g.row = goal) →
      ∃ σ', PathFrom wm start σ' ∧
        (∃ v, σ'.getLast? = some v ∧ v.row = goal) ∧
        (∀ p ∈ σ'.dropLast, p.row ≠ goal) ∧
        σ'.length ≤ σ.length := by
  intro n
  induction n with
  | zero =>
      intro σ hlen hpath _
      have := path_ne_nil hpath
      have : 0 < σ.length := List.length_pos.mpr this
      omega
  | succ n ih =>
      intro σ hlen hpath hg
      obtain ⟨g, hgmem, hgrow⟩ := hg
      by_cases hdl : ∃ p ∈ σ.dropLast, p.row = goal
      · -- a goal cell occurs before the end: recurse on the prefix
        obtain ⟨p, hp, hprow⟩ := hdl
        have hdne : σ.dropLast ≠ [] := by
          intro hnil; rw [hnil] at hp; exact absurd hp (by simp)
        have hlen2 : 2 ≤ σ.length := by
          have h1 : σ.dropLast.length + 1 = σ.length := by
            rw [List.length_dropLast]
            have : 0 < σ.length := List.length_pos.mpr (path_ne_nil hpath)
            omega
          have : 0 < σ.dropLast.length := List.length_pos.mpr hdne
          omega
        obtain ⟨hpre, hlen1, _⟩ := path_unsnoc hpath hlen2
        obtain ⟨σ', h1, h2, h3, h4⟩ :=
          ih σ.dropLast (by omega) hpre ⟨p, hp, hprow⟩
        exact ⟨σ', h1, h2, h3, by omega⟩
      · -- the first goal cell is the last cell
        push_neg at hdl
        have hne : σ ≠ [] := path_ne_nil hpath
        have hsplit : σ.dropLast ++ [σ.getLast hne] = σ :=
          List.dropLast_append_getLast hne
        have hglast : g = σ.getLast hne := by
          rw [← hsplit] at hgmem
          rcases List.mem_append.mp hgmem with hin | hin
          · exact absurd hgrow (hdl g hin)
          · simpa using hin
        exact ⟨σ, hpath,
          ⟨σ.getLast hne, List.getLast?_eq_getLast _ hne, hglast ▸ hgrow⟩,
          hdl, le_refl _⟩

/-- In a closed visited set containing `start`, every path from `start`
stays inside the set. -/
theorem chain_all_inV {wm : WallManager} {V : Finset (Int × Int)}
    (hclosed : ∀ u : Position, u.to_tuple ∈ V →
      ∀ v : Position, adjStep wm u v → v.to_tuple ∈ V) :
    ∀ (σ : List Position) (u : Position), u.to_tuple ∈ V →
      List.Chain (adjStep wm) u σ → ∀ p ∈ σ, p.to_tuple ∈ V := by
  intro σ
  induction σ with
  | nil => intro u _ _ p hp; exact absurd hp (by simp)
  | cons v rest ih =>
      intro u huV hchain p hp
      rcases List.chain_cons.mp hchain with ⟨hstep, hrest⟩
      have hvV : v.to_tuple ∈ V := hclosed u huV v hstep
      rcases List.mem_cons.mp hp with rfl | hp'
      · exact hvV
      · exact ih v hvV hrest p hp'

/-- The cells of a list of queue entries. -/
def entryCells (l : List Pathfinder.Entry) : Finset (Int × Int) :=
  (l.map (fun e => e.1.to_tuple)).toFinset

theorem entryCells_nil : entryCells [] = ∅ := rfl

theorem entryCells_cons (e : Pathfinder.Entry) (l : List Pathfinder.Entry) :
    entryCells (e :: l) = insert e.1.to_tuple (entryCells l) := by
  unfold entryCells
  simp

/-- One-step unfolding of `Pathfinder.expand` on a direction cons. -/
theorem expand_cons (wm : WallManager) (goal : Int) (current : Position)
    (path : List Position) (dr dc : Int) (ds : List (Int × Int))
    (V : Finset (Int × Int)) (Q : List Pathfinder.Entry) :
    Pathfinder.expand wm goal current path ((dr, dc) :: ds) V Q =
      (if ¬ Board.is_valid_cell (current.row + dr) (current.col + dc) then
        Pathfinder.expand wm goal current path ds V Q
      else if (Position.to_tuple ⟨current.row + dr, current.col + dc⟩) ∈ V then
        Pathfinder.expand wm goal current path ds V Q
      else if wm.is_move_blocked current ⟨current.row + dr, current.col + dc⟩ then
        Pathfinder.expand wm goal current path ds V Q
      else if current.row + dr = goal then
        (some (path ++ [⟨current.row + dr, current.col + dc⟩]), V, Q)
      else
        Pathfinder.expand wm goal current path ds
          (insert (Position.to_tuple ⟨current.row + dr, current.col + dc⟩) V)
          (Q ++ [(⟨current.row + dr, current.col + dc⟩,
            path ++ [⟨current.row + dr, current.col + dc⟩])])) := rfl

/-- Behaviour of the inner direction loop of the BFS: either it returns a
newly generated goal cell appended to the popped path, or it returns no
path, appends some freshly visited non-goal entries to the queue, and
afterwards every admissible neighbour of `current` in the scanned
directions is visited (and was already visited if it lies on the goal
row). -/
theorem expand_spec (wm : WallManager) (goal : Int) (current : Position)
    (path : List Position) :
    ∀ (ds : List (Int × Int)) (V : Finset (Int × Int))
      (Q : List Pathfinder.Entry),
    (∃ (g : Position) (V₁ : Finset (Int × Int)) (Q₁ : List Pathfinder.Entry),
      Pathfinder.expand wm goal current path ds V Q =
        (some (path ++ [g]), V₁, Q₁) ∧
      (∃ d ∈ ds, g = ⟨current.row + d.1, current.col + d.2⟩) ∧
      Board.is_valid_cell g.row g.col = true ∧
      wm.is_move_blocked current g = false ∧
      g.row = goal) ∨
    (∃ new : List Pathfinder.Entry,
      Pathfinder.expand wm goal current path ds V Q =
        (none, V ∪ entryCells new, Q ++ new) ∧
      (V ∪ entryCells new).card = V.card + new.length ∧
      (∀ e ∈ new,
        (∃ d ∈ ds, e.1 = ⟨current.row + d.1, current.col + d.2⟩) ∧
        e.2 = path ++ [e.1] ∧
        Board.is_valid_cell e.1.row e.1.col = true ∧
        wm.is_move_blocked current e.1 = false ∧
        e.1.row ≠ goal ∧
        e.1.to_tuple ∉ V) ∧
      (∀ d ∈ ds, ∀ v : Position,
        v = ⟨current.row + d.1, current.col + d.2⟩ →
        Board.is_valid_cell v.row v.col = true →
        wm.is_move_blocked current v = false →
        v.to_tuple ∈ V ∪ entryCells new ∧
          (v.row = goal → v.to_tuple ∈ V))) := by
  intro ds
  induction ds with
  | nil =>
      intro V Q
      right
      refine ⟨[], ?_, ?_, by simp, by simp⟩
      · show (none, V, Q) = _
        rw [entryCells_nil, Finset.union_empty, List.append_nil]
      · rw [entryCells_nil, Finset.union_empty]
        simp
  | cons d ds ih =>
      intro V Q
      obtain ⟨dr, dc⟩ := d
      rw [expand_cons]
      by_cases hvalid : Board.is_valid_cell (current.row + dr) (current.col + dc) = true
      case neg =>
        rw [if_pos (by simp [hvalid])]
        rcases ih V Q with ⟨g, V₁, Q₁, heq, ⟨d', hd', hg⟩, hrest⟩ |
          ⟨new, heq, hcard, hnew, hcov⟩
        · exact Or.inl ⟨g, V₁, Q₁, heq, ⟨d', List.mem_cons_of_mem _ hd', hg⟩, hrest⟩
        · refine Or.inr ⟨new, heq, hcard, ?_, ?_⟩
          · intro e he
            obtain ⟨⟨d', hd', he1⟩, hrest'⟩ := hnew e he
            exact ⟨⟨d', List.mem_cons_of_mem _ hd', he1⟩, hrest'⟩
          · intro d' hd' v hv hvv hvb
            rcases List.mem_cons.mp hd' with rfl | hd''
            · exfalso
              apply hvalid
              rw [hv] at hvv
              exact hvv
            · exact hcov d' hd'' v hv hvv hvb
      case pos =>
        rw [if_neg (by simp [hvalid])]
        by_cases hmem : (Position.to_tuple ⟨current.row + dr, current.col + dc⟩) ∈ V
        case pos =>
          rw [if_pos hmem]
          rcases ih V Q with ⟨g, V₁, Q₁, heq, ⟨d', hd', hg⟩, hrest⟩ |
            ⟨new, heq, hcard, hnew, hcov⟩
          · exact Or.inl ⟨g, V₁, Q₁, heq, ⟨d', List.mem_cons_of_mem _ hd', hg⟩,
              hrest⟩
          · refine Or.inr ⟨new, heq, hcard, ?_, ?_⟩
            · intro e he
              obtain ⟨⟨d', hd', he1⟩, hrest'⟩ := hnew e he
              exact ⟨⟨d', List.mem_cons_of_mem _ hd', he1⟩, hrest'⟩
            · intro d' hd' v hv hvv hvb
              rcases List.mem_cons.mp hd' with rfl | hd''
              · subst hv
                exact ⟨Finset.mem_union_left _ hmem, fun _ => hmem⟩
              · exact hcov d' hd'' v hv hvv hvb
        case neg =>
          rw [if_neg hmem]
          by_cases hblock : wm.is_move_blocked current
              ⟨current.row + dr, current.col + dc⟩ = true
          case pos =>
            rw [if_pos hblock]
            rcases ih V Q with ⟨g, V₁, Q₁, heq, ⟨d', hd', hg⟩, hrest⟩ |
              ⟨new, heq, hcard, hnew, hcov⟩
            · exact Or.inl ⟨g, V₁, Q₁, heq,
                ⟨d', List.mem_cons_of_mem _ hd', hg⟩, hrest⟩
            · refine Or.inr ⟨new, heq, hcard, ?_, ?_⟩
              · intro e he
                obtain ⟨⟨d', hd', he1⟩, hrest'⟩ := hnew e he
                exact ⟨⟨d', List.mem_cons_of_mem _ hd', he1⟩, hrest'⟩
              · intro d' hd' v hv hvv hvb
                rcases List.mem_cons.mp hd' with rfl | hd''
                · exfalso
                  rw [hv] at hvb
                  rw [hvb] at hblock
                  exact absurd hblock (by simp)
                · exact hcov d' hd'' v hv hvv hvb
          case neg =>
            rw [if_neg hblock]
            by_cases hgoal : current.row + dr = goal
            case pos =>
              rw [if_pos hgoal]
              exact Or.inl ⟨⟨current.row + dr, current.col + dc⟩, V, Q, rfl,
                ⟨(dr, dc), List.mem_cons_self _ _, rfl⟩, hvalid,
                (by rcases hb : wm.is_move_blocked current
                      ⟨current.row + dr, current.col + dc⟩
                    · rfl
                    · exact absurd hb hblock), hgoal⟩
            case neg =>
              rw [if_neg hgoal]
              rcases ih (insert (Position.to_tuple
                    ⟨current.row + dr, current.col + dc⟩) V)
                  (Q ++ [(⟨current.row + dr, current.col + dc⟩,
                    path ++ [⟨current.row + dr, current.col + dc⟩])]) with
                ⟨g, V₁, Q₁, heq, ⟨d', hd', hg⟩, hrest⟩ |
                ⟨new, heq, hcard, hnew, hcov⟩
              · exact Or.inl ⟨g, V₁, Q₁, heq,
                  ⟨d', List.mem_cons_of_mem _ hd', hg⟩, hrest⟩
              · set t := Position.to_tuple ⟨current.row + dr, current.col + dc⟩
                  with ht
                set e₀ : Pathfinder.Entry :=
                  (⟨current.row + dr, current.col + dc⟩,
                    path ++ [⟨current.row + dr, current.col + dc⟩]) with he₀
                have hsetseq : insert t V ∪ entryCells new =
                    V ∪ entryCells (e₀ :: new) := by
                  rw [entryCells_cons]
                  show insert t V ∪ entryCells new = V ∪ insert t (entryCells new)
                  rw [Finset.insert_union, Finset.union_insert]
                refine Or.inr ⟨e₀ :: new, ?_, ?_, ?_, ?_⟩
                · rw [heq, ← hsetseq]
                  have : (Q ++ [e₀]) ++ new = Q ++ (e₀ :: new) := by simp
                  rw [this]
                · rw [← hsetseq, hcard,
                    Finset.card_insert_of_not_mem hmem]
                  simp [Nat.add_comm, Nat.add_assoc, Nat.add_left_comm]
                · intro e he
                  rcases List.mem_cons.mp he with rfl | he'
                  · refine ⟨⟨(dr, dc), List.mem_cons_self _ _, rfl⟩, rfl,
                      hvalid, ?_, hgoal, hmem⟩
                    rcases hb : wm.is_move_blocked current
                        ⟨current.row + dr, current.col + dc⟩
                    · rfl
                    · exact absurd hb hblock
                  · obtain ⟨⟨d', hd', he1⟩, he2, he3, he4, he5, he6⟩ :=
                      hnew e he'
                    refine ⟨⟨d', List.mem_cons_of_mem _ hd', he1⟩, he2, he3,
                      he4, he5, ?_⟩
                    intro hcontra
                    exact he6 (Finset.mem_insert_of_mem hcontra)
                · intro d' hd' v hv hvv hvb
                  rcases List.mem_cons.mp hd' with rfl | hd''
                  · subst hv
                    constructor
                    · rw [← hsetseq]
                      exact Finset.mem_union_left _ (Finset.mem_insert_self _ _)
                    · intro hrow
                      exact absurd hrow hgoal
                  · obtain ⟨hin, hgoalin⟩ := hcov d' hd'' v hv hvv hvb
                    constructor
                    · rw [← hsetseq]
                      exact hin
                    · intro hrow
                      rcases Finset.mem_insert.mp (hgoalin hrow) with heqt | hinV
                      · exfalso
                        have : v = ⟨current.row + dr, current.col + dc⟩ :=
                          to_tuple_inj heqt
                        rw [this] at hrow
                        exact hgoal hrow
                      · exact hinV

/-- The BFS loop invariant.  The queue is `A ++ B` where `A` holds the
entries of the current level (paths of length `L + 1`) and `B` the entries
of the next level (length `L + 2`).  `V` is the visited set. -/
structure BfsInv (wm : WallManager) (goal : Int) (start : Position) (L : Nat)
    (A B : List Pathfinder.Entry) (V : Finset (Int × Int)) : Prop where
  start_mem : start.to_tuple ∈ V
  v_valid : ∀ t ∈ V, Board.is_valid_cell t.1 t.2 = true
  v_nogoal : ∀ t ∈ V, t.1 ≠ goal
  q_path : ∀ e ∈ A ++ B, PathFrom wm start e.2 ∧ e.2.getLast? = some e.1 ∧
    ∀ p ∈ e.2, p.row ≠ goal
  q_inV : ∀ e ∈ A ++ B, e.1.to_tuple ∈ V
  a_len : ∀ e ∈ A, e.2.length = L + 1
  b_len : ∀ e ∈ B, e.2.length = L + 2
  q_min : ∀ e ∈ A ++ B, ∀ σ, PathFrom wm start σ → (∀ p ∈ σ, p.row ≠ goal) →
    σ.getLast? = some e.1 → e.2.length ≤ σ.length
  closed : ∀ u : Position, u.to_tuple ∈ V → (∀ e ∈ A ++ B, e.1 ≠ u) →
    ∀ v : Position, adjStep wm u v → v.to_tuple ∈ V

/-- When the current level is exhausted the next level becomes current. -/
theorem BfsInv.shift {wm goal start L B V}
    (inv : BfsInv wm goal start L [] B V) :
    BfsInv wm goal start (L + 1) B [] V := by
  obtain ⟨h1, h2, h3, h4, h5, h6, h7, h8, h9⟩ := inv
  rw [List.nil_append] at h4 h5 h8 h9
  refine ⟨h1, h2, h3, ?_, ?_, h7, by simp, ?_, ?_⟩
  · rw [List.append_nil]; exact h4
  · rw [List.append_nil]; exact h5
  · rw [List.append_nil]; exact h8
  · rw [List.append_nil]; exact h9

theorem BfsInv.min_len {wm goal start L A B V}
    (inv : BfsInv wm goal start L A B V) :
    ∀ e ∈ A ++ B, L + 1 ≤ e.2.length := by
  intro e he
  rcases List.mem_append.mp he with hA | hB
  · rw [inv.a_len e hA]
  · rw [inv.b_len e hB]
    omega

theorem getLast?_mem_list {α : Type} {l : List α} {x : α}
    (h : l.getLast? = some x) : x ∈ l := by
  obtain ⟨hne, heq⟩ := List.mem_getLast?_eq_getLast (Option.mem_def.mpr h)
  rw [heq]
  exact List.getLast_mem hne

/-- Coverage: every goal-free path of length at most `L + 1` ends in the
visited set. -/
theorem inv_cover {wm goal start L A B V}
    (inv : BfsInv wm goal start L A B V) :
    ∀ (n : Nat) (σ : List Position), σ.length ≤ n → σ.length ≤ L + 1 →
      PathFrom wm start σ → (∀ p ∈ σ, p.row ≠ goal) →
      ∀ p, σ.getLast? = some p → p.to_tuple ∈ V := by
  intro n
  induction n with
  | zero =>
      intro σ hn _ hpath _ p _
      have := List.length_pos.mpr (path_ne_nil hpath)
      omega
  | succ n ih =>
      intro σ hn hlen hpath hGF p hlast
      by_cases h1 : σ.length ≤ 1
      · -- σ = [start]
        have hne := path_ne_nil hpath
        rcases σ with _ | ⟨x, rest⟩
        · exact absurd rfl hne
        · have : rest = [] := by
            rcases rest with _ | _
            · rfl
            · simp at h1
          subst this
          have hx : x = start := by
            have := hpath.1
            simpa using this
          have hp : x = p := by simpa using hlast
          rw [← hp, hx]
          exact inv.start_mem
      · have hlen2 : 2 ≤ σ.length := by omega
        obtain ⟨hτpath, hτlen, u, v, hulast, hvlast, hstep⟩ :=
          path_unsnoc hpath hlen2
        have hτGF : ∀ q ∈ σ.dropLast, q.row ≠ goal := fun q hq =>
          hGF q (List.dropLast_subset σ hq)
        have huV : u.to_tuple ∈ V :=
          ih σ.dropLast (by omega) (by omega) hτpath hτGF u hulast
        have hprocessed : ∀ e ∈ A ++ B, e.1 ≠ u := by
          intro e he hcontra
          have hmin := inv.q_min e he σ.dropLast hτpath hτGF
            (by rw [hulast, hcontra])
          have hminlen := inv.min_len e he
          omega
        have hvV := inv.closed u huV hprocessed v hstep
        have hpv : p = v := by
          rw [hvlast] at hlast
          exact (Option.some_inj.mp hlast).symm
        rw [hpv]
        exact hvV

/-- With an empty queue, no goal path exists at all. -/
theorem bfs_empty {wm goal start L V} (hne : start.row ≠ goal)
    (inv : BfsInv wm goal start L [] [] V) :
    ∀ σ, ¬ GoalPathFrom wm start goal σ := by
  intro σ hσ
  obtain ⟨hσpath, gσ, hglast, hgrow⟩ := hσ
  obtain ⟨σ', hσ'path, ⟨v, hvlast, hvrow⟩, hGFdrop, _⟩ :=
    goal_prefix σ.length σ (le_refl _) hσpath
      ⟨gσ, getLast?_mem_list hglast, hgrow⟩
  have hclosed : ∀ u : Position, u.to_tuple ∈ V →
      ∀ w : Position, adjStep wm u w → w.to_tuple ∈ V := by
    intro u hu w hw
    exact inv.closed u hu (by intro e he; exact absurd he (by simp)) w hw
  -- σ' has length ≥ 2 since start is not on the goal row
  have hσ'len : 2 ≤ σ'.length := by
    have hne' := path_ne_nil hσ'path
    rcases σ' with _ | ⟨x, rest⟩
    · exact absurd rfl hne'
    · rcases rest with _ | _
      · exfalso
        have hx : x = start := by simpa using hσ'path.1
        have hv : x = v := by simpa using hvlast
        rw [← hv, hx] at hvrow
        exact hne hvrow
      · simp
  obtain ⟨hτpath, hτlen, u, v', hulast, hv'last, hstep⟩ :=
    path_unsnoc hσ'path hσ'len
  -- all of the goal-free prefix lies in V
  have hτall : ∀ p ∈ σ'.dropLast, p.to_tuple ∈ V := by
    rcases hτσ : σ'.dropLast with _ | ⟨x, rest⟩
    · intro p hp; exact absurd hp (by simp)
    · have hx : x = start := by
        have := hτpath.1
        rw [hτσ] at this
        simpa using this
      have hchain : List.Chain (adjStep wm) x rest := by
        have := hτpath.2
        rw [hτσ] at this
        exact this
      intro p hp
      rcases List.mem_cons.mp hp with rfl | hp'
      · rw [hx]; exact inv.start_mem
      · exact chain_all_inV hclosed rest x (hx ▸ inv.start_mem) hchain p hp'
  have huV : u.to_tuple ∈ V :=
    hτall u (getLast?_mem_list hulast)
  have hvV : v'.to_tuple ∈ V := hclosed u huV v' hstep
  have : v' = v := by
    rw [hv'last] at hvlast
    exact Option.some_inj.mp hvlast
  rw [this] at hvV
  exact inv.v_nogoal _ hvV hvrow

theorem bfsLoop_nil (wm : WallManager) (goal : Int) (fuel : Nat)
    (V : Finset (Int × Int)) :
    Pathfinder.bfsLoop wm goal fuel [] V = none := by
  cases fuel <;> rfl

theorem bfsLoop_cons (wm : WallManager) (goal : Int) (fuel : Nat)
    (current : Position) (path : List Position)
    (rest : List Pathfinder.Entry) (V : Finset (Int × Int)) :
    Pathfinder.bfsLoop wm goal (fuel + 1) ((current, path) :: rest) V =
      (match Pathfinder.expand wm goal current path Board.DIRECTIONS V rest with
       | (some found, _, _) => some found
       | (none, visited', queue') =>
           Pathfinder.bfsLoop wm goal fuel queue' visited') := rfl

/-- The specification the loop satisfies: a returned path is a goal path
of minimum length; `none` means there is no goal path. -/
def LoopSpec (wm : WallManager) (goal : Int) (start : Position)
    (r : Option (List Position)) : Prop :=
  match r with
  | some π => GoalPathFrom wm start goal π ∧
      ∀ σ, GoalPathFrom wm start goal σ → π.length ≤ σ.length
  | none => ∀ σ, ¬ GoalPathFrom wm start goal σ

/-- One iteration of the BFS loop preserves correctness, assuming the
current level is nonempty. -/
theorem bfs_step (wm : WallManager) (goal : Int) (start : Position)
    (hne : start.row ≠ goal) (fuel L : Nat)
    (A B : List Pathfinder.Entry) (V : Finset (Int × Int))
    (inv : BfsInv wm goal start L A B V) (hAne : A ≠ [])
    (hfuel : (A ++ B).length + validCells.card ≤ (fuel + 1) + V.card)
    (IH : ∀ (L' : Nat) (A' B' : List Pathfinder.Entry)
      (V' : Finset (Int × Int)), BfsInv wm goal start L' A' B' V' →
      (A' ++ B').length + validCells.card ≤ fuel + V'.card →
      LoopSpec wm goal start
        (Pathfinder.bfsLoop wm goal fuel (A' ++ B') V')) :
    LoopSpec wm goal start
      (Pathfinder.bfsLoop wm goal (fuel + 1) (A ++ B) V) := by
  rcases A with _ | ⟨a0, A0⟩
  · exact absurd rfl hAne
  obtain ⟨current, path⟩ := a0
  have hmem0 : ((current, path) : Pathfinder.Entry) ∈
      ((current, path) :: A0) ++ B := by simp
  obtain ⟨hpath, hlast, hGF⟩ := inv.q_path _ hmem0
  have hplen : path.length = L + 1 := inv.a_len (current, path) (List.mem_cons_self _ _)
  rw [List.cons_append, bfsLoop_cons]
  rcases expand_spec wm goal current path Board.DIRECTIONS V (A0 ++ B) with
    ⟨g, V₁, Q₁, heq, hdir, hgvalid, hgfree, hgrow⟩ |
    ⟨new, heq, hcard, hnew, hcov⟩
  · -- a goal cell was generated: the returned path is optimal
    rw [heq]
    show GoalPathFrom wm start goal (path ++ [g]) ∧ _
    have hstep : adjStep wm current g := ⟨hdir, hgvalid, hgfree⟩
    obtain ⟨hπpath, hπlast⟩ := path_snoc hpath hlast hstep
    refine ⟨⟨hπpath, g, hπlast, hgrow⟩, ?_⟩
    intro σ hσ
    obtain ⟨hσpath, gσ, hglast, hgσrow⟩ := hσ
    obtain ⟨σ', hσ'path, ⟨v, hvlast, hvrow⟩, hGFdrop, hlenle⟩ :=
      goal_prefix σ.length σ (le_refl _) hσpath
        ⟨gσ, getLast?_mem_list hglast, hgσrow⟩
    have hσ'ge : L + 2 ≤ σ'.length := by
      by_contra hlt
      push_neg at hlt
      have hσ'len2 : 2 ≤ σ'.length := by
        have hne' := path_ne_nil hσ'path
        rcases σ' with _ | ⟨x, rest⟩
        · exact absurd rfl hne'
        · rcases rest with _ | _
          · exfalso
            have hx : x = start := by simpa using hσ'path.1
            have hv : x = v := by simpa using hvlast
            rw [← hv, hx] at hvrow
            exact hne hvrow
          · simp
      obtain ⟨hτpath, hτlen, u, v', hulast, hv'last, hstep'⟩ :=
        path_unsnoc hσ'path hσ'len2
      have hτGF : ∀ q ∈ σ'.dropLast, q.row ≠ goal := hGFdrop
      have huV : u.to_tuple ∈ V :=
        inv_cover inv σ'.dropLast.length σ'.dropLast (le_refl _)
          (by omega) hτpath hτGF u hulast
      have hprocessed : ∀ e ∈ ((current, path) :: A0) ++ B, e.1 ≠ u := by
        intro e he hcontra
        have hmin := inv.q_min e he σ'.dropLast hτpath hτGF
          (by rw [hulast, hcontra])
        have hminlen := inv.min_len e he
        omega
      have hv'V := inv.closed u huV hprocessed v' hstep'
      have : v' = v := by
        rw [hv'last] at hvlast
        exact Option.some_inj.mp hvlast
      rw [this] at hv'V
      exact inv.v_nogoal _ hv'V hvrow
    have hπlen : (path ++ [g]).length = L + 2 := by
      rw [List.length_append, hplen]
      rfl
    omega
  · -- no goal cell: one level deeper, invariant maintained
    rw [heq]
    show LoopSpec wm goal start
      (Pathfinder.bfsLoop wm goal fuel ((A0 ++ B) ++ new) (V ∪ entryCells new))
    have hnewcells : ∀ t ∈ entryCells new, ∃ e ∈ new, e.1.to_tuple = t := by
      intro t ht
      unfold entryCells at ht
      rw [List.mem_toFinset, List.mem_map] at ht
      obtain ⟨e, he, heq'⟩ := ht
      exact ⟨e, he, heq'⟩
    have hVsub : V ⊆ V ∪ entryCells new := Finset.subset_union_left
    have inv' : BfsInv wm goal start L A0 (B ++ new) (V ∪ entryCells new) := by
      refine ⟨hVsub inv.start_mem, ?_, ?_, ?_, ?_, ?_, ?_, ?_, ?_⟩
      · intro t ht
        rcases Finset.mem_union.mp ht with h | h
        · exact inv.v_valid t h
        · obtain ⟨e, he, rfl⟩ := hnewcells t h
          exact (hnew e he).2.2.1
      · intro t ht
        rcases Finset.mem_union.mp ht with h | h
        · exact inv.v_nogoal t h
        · obtain ⟨e, he, rfl⟩ := hnewcells t h
          exact (hnew e he).2.2.2.2.1
      · intro e he
        rcases List.mem_append.mp he with h | hBn
        · exact inv.q_path e
            (List.mem_append_left _ (List.mem_cons_of_mem _ h))
        · rcases List.mem_append.mp hBn with h | h
          · exact inv.q_path e (List.mem_append_right _ h)
          · obtain ⟨hd, he2, he3, he4, he5, _⟩ := hnew e h
            have hstep : adjStep wm current e.1 := ⟨hd, he3, he4⟩
            obtain ⟨hp', hl'⟩ := path_snoc hpath hlast hstep
            rw [he2]
            refine ⟨hp', hl', ?_⟩
            intro p hp
            rcases List.mem_append.mp hp with h' | h'
            · exact hGF p h'
            · rcases List.mem_singleton.mp h' with rfl
              exact he5
      · intro e he
        rcases List.mem_append.mp he with h | hBn
        · exact hVsub (inv.q_inV e
            (List.mem_append_left _ (List.mem_cons_of_mem _ h)))
        · rcases List.mem_append.mp hBn with h | h
          · exact hVsub (inv.q_inV e (List.mem_append_right _ h))
          · refine Finset.mem_union_right _ ?_
            unfold entryCells
            rw [List.mem_toFinset, List.mem_map]
            exact ⟨e, h, rfl⟩
      · intro e he
        exact inv.a_len e (List.mem_cons_of_mem _ he)
      · intro e he
        rcases List.mem_append.mp he with h | h
        · exact inv.b_len e h
        · obtain ⟨_, he2, _⟩ := hnew e h
          rw [he2, List.length_append, hplen]
          rfl
      · intro e he σ hσpath hσGF hσlast
        rcases List.mem_append.mp he with h | hBn
        · exact inv.q_min e
            (List.mem_append_left _ (List.mem_cons_of_mem _ h))
            σ hσpath hσGF hσlast
        · rcases List.mem_append.mp hBn with h | h
          · exact inv.q_min e (List.mem_append_right _ h) σ hσpath hσGF hσlast
          · obtain ⟨_, he2, _, _, _, he6⟩ := hnew e h
            rw [he2, List.length_append, hplen]
            by_contra hlt
            push_neg at hlt
            have : e.1.to_tuple ∈ V :=
              inv_cover inv σ.length σ (le_refl _)
                (by simp at hlt ⊢; omega) hσpath hσGF e.1 hσlast
            exact he6 this
      · intro u huV' hproc v hstep
        rcases Finset.mem_union.mp huV' with huV | hun
        · by_cases hcur : u = current
          · subst hcur
            obtain ⟨⟨d, hd, hveq⟩, hvv, hvb⟩ := hstep
            exact (hcov d hd v hveq hvv hvb).1
          · have hprocold : ∀ e ∈ ((current, path) :: A0) ++ B, e.1 ≠ u := by
              intro e he
              rcases List.mem_cons.mp (by
                rw [List.cons_append] at he; exact he) with rfl | he'
              · intro hc
                exact hcur hc.symm
              · intro hc
                apply hproc e
                · rcases List.mem_append.mp he' with h' | h'
                  · exact List.mem_append_left _ h'
                  · exact List.mem_append_right _ (List.mem_append_left _ h')
                · exact hc
            exact hVsub (inv.closed u huV hprocold v hstep)
        · obtain ⟨e, he, heq'⟩ := hnewcells _ hun
          exfalso
          exact hproc e (List.mem_append_right _ (List.mem_append_right _ he))
            (to_tuple_inj heq')
    have hfuel' : (A0 ++ (B ++ new)).length + validCells.card ≤
        fuel + (V ∪ entryCells new).card := by
      rw [hcard]
      have h0 : (((current, path) :: A0) ++ B).length = A0.length + B.length + 1 := by
        simp
      rw [h0] at hfuel
      simp only [List.length_append] at *
      omega
    have := IH L A0 (B ++ new) (V ∪ entryCells new) inv' hfuel'
    rw [← List.append_assoc] at this
    exact this

theorem valid_iff (p : Position) :
    p.valid ↔ Board.is_valid_cell p.row p.col = true := by
  unfold Position.valid Board.is_valid_cell
  rw [decide_eq_true_eq]

/-- Full correctness of the BFS loop under the invariant. -/
theorem bfsLoop_correct (wm : WallManager) (goal : Int) (start : Position)
    (hne : start.row ≠ goal) :
    ∀ (fuel L : Nat) (A B : List Pathfinder.Entry) (V : Finset (Int × Int)),
      BfsInv wm goal start L A B V →
      (A ++ B).length + validCells.card ≤ fuel + V.card →
      LoopSpec wm goal start (Pathfinder.bfsLoop wm goal fuel (A ++ B) V) := by
  intro fuel
  induction fuel with
  | zero =>
      intro L A B V inv hfuel
      rcases hAB : A ++ B with _ | ⟨e, rest⟩
      · have hA : A = [] := (List.append_eq_nil.mp hAB).1
        have hB : B = [] := (List.append_eq_nil.mp hAB).2
        subst hA; subst hB
        rw [bfsLoop_nil]
        exact bfs_empty hne inv
      · exfalso
        have hsub : V ⊆ validCells := fun t ht =>
          mem_validCells.mpr (inv.v_valid t ht)
        have hcard : V.card ≤ validCells.card := Finset.card_le_card hsub
        rw [hAB] at hfuel
        simp only [List.length_cons, Nat.add_zero] at hfuel
        omega
  | succ fuel ih =>
      intro L A B V inv hfuel
      rcases hA : A with _ | ⟨a0, A0⟩
      · subst hA
        rcases hB : B with _ | ⟨b0, B0⟩
        · subst hB
          rw [List.nil_append, bfsLoop_nil]
          exact bfs_empty hne inv
        · subst hB
          have hstep := bfs_step wm goal start hne fuel (L + 1)
            (b0 :: B0) [] V inv.shift (by simp)
            (by rw [List.append_nil]; rw [List.nil_append] at hfuel; exact hfuel)
            ih
          rw [List.append_nil] at hstep
          rw [List.nil_append]
          exact hstep
      · subst hA
        exact bfs_step wm goal start hne fuel L (a0 :: A0) B V inv
          (by simp) hfuel ih

/-- Correctness of `find_shortest_path`: a returned path is a goal path of
minimal length; `none` means no goal path exists. -/
theorem find_shortest_path_spec (start : Position) (hv : start.valid)
    (goal : Int) (wm : WallManager) (o : Option Position) :
    LoopSpec wm goal start (Pathfinder.find_shortest_path start goal wm o) := by
  unfold Pathfinder.find_shortest_path
  by_cases h : start.row = goal
  · rw [if_pos h]
    show GoalPathFrom wm start goal [start] ∧ _
    refine ⟨⟨⟨rfl, List.chain'_singleton _⟩, start, rfl, h⟩, ?_⟩
    intro σ hσ
    have h1 : 1 ≤ σ.length := List.length_pos.mpr (path_ne_nil hσ.1)
    simpa using h1
  · rw [if_neg h]
    have hinv : BfsInv wm goal start 0 [(start, [start])] [] {start.to_tuple} := by
      refine ⟨Finset.mem_singleton_self _, ?_, ?_, ?_, ?_, ?_, by simp, ?_, ?_⟩
      · intro t ht
        rw [Finset.mem_singleton] at ht
        subst ht
        exact (valid_iff start).mp hv
      · intro t ht
        rw [Finset.mem_singleton] at ht
        subst ht
        exact h
      · intro e he
        rw [List.append_nil, List.mem_singleton] at he
        subst he
        refine ⟨⟨rfl, List.chain'_singleton _⟩, rfl, ?_⟩
        intro p hp
        rw [List.mem_singleton] at hp
        subst hp
        exact h
      · intro e he
        rw [List.append_nil, List.mem_singleton] at he
        subst he
        exact Finset.mem_singleton_self _
      · intro e he
        rw [List.mem_singleton] at he
        subst he
        rfl
      · intro e he σ hσpath _ _
        rw [List.append_nil, List.mem_singleton] at he
        subst he
        have := List.length_pos.mpr (path_ne_nil hσpath)
        simpa using this
      · intro u huV hproc v _
        exfalso
        rw [Finset.mem_singleton] at huV
        have hu : u = start := to_tuple_inj huV
        exact hproc (start, [start]) (by simp) (by rw [hu])
    have hfuel : ([((start : Position), [start])] ++ []).length +
        validCells.card ≤ Pathfinder.FUEL + ({start.to_tuple} :
          Finset (Int × Int)).card := by
      rw [validCells_card, Finset.card_singleton]
      simp [Pathfinder.FUEL]
    have := bfsLoop_correct wm goal start h Pathfinder.FUEL 0
      [(start, [start])] [] {start.to_tuple} hinv hfuel
    rw [List.append_nil] at this
    exact this

/-- C3: `get_shortest_distance` is `-1` exactly when no cell of the goal
row is reachable from `start` in the severed-edge grid graph, and
otherwise it is the minimum number of unit steps to any goal-row cell
(in particular 0 when `start` is already on the goal row, realised by the
one-cell path). -/
theorem C3_shortest_distance (start : Position) (hv : start.valid)
    (goal : Int) (wm : WallManager) :
    (Pathfinder.get_shortest_distance start goal wm = -1 ∧
      ∀ σ, ¬ GoalPathFrom wm start goal σ) ∨
    (∃ n : Nat, Pathfinder.get_shortest_distance start goal wm = (n : Int) ∧
      (∃ σ, GoalPathFrom wm start goal σ ∧ σ.length = n + 1) ∧
      ∀ σ, GoalPathFrom wm start goal σ → n + 1 ≤ σ.length) := by
  have hspec := find_shortest_path_spec start hv goal wm none
  unfold Pathfinder.get_shortest_distance
  rcases hfind : Pathfinder.find_shortest_path start goal wm none with _ | π
  · rw [hfind] at hspec
    exact Or.inl ⟨rfl, hspec⟩
  · rw [hfind] at hspec
    obtain ⟨hgoalpath, hmin⟩ := hspec
    have hlen : 1 ≤ π.length := List.length_pos.mpr (path_ne_nil hgoalpath.1)
    refine Or.inr ⟨π.length - 1, ?_, ⟨π, hgoalpath, by omega⟩, ?_⟩
    · show (π.length : Int) - 1 = _
      omega
    · intro σ hσ
      have := hmin σ hσ
      omega

/-- C3 witness: the fresh board, player-1 start, goal row 0. -/
theorem C3_witness :
    Position.valid ⟨8, 4⟩ ∧
    ((Pathfinder.get_shortest_distance ⟨8, 4⟩ 0 WallManager.empty = -1 ∧
      ∀ σ, ¬ GoalPathFrom WallManager.empty ⟨8, 4⟩ 0 σ) ∨
    (∃ n : Nat,
      Pathfinder.get_shortest_distance ⟨8, 4⟩ 0 WallManager.empty = (n : Int) ∧
      (∃ σ, GoalPathFrom WallManager.empty ⟨8, 4⟩ 0 σ ∧ σ.length = n + 1) ∧
      ∀ σ, GoalPathFrom WallManager.empty ⟨8, 4⟩ 0 σ → n + 1 ≤ σ.length)) :=
  ⟨by decide, C3_shortest_distance ⟨8, 4⟩ (by decide) 0 WallManager.empty⟩

/-! ## C1 — no wall placement may fully block either player -/

theorem use_wall_pos (p : Player) : (p.use_wall).2.position = p.position := by
  unfold Player.use_wall; split <;> rfl

theorem use_wall_goal (p : Player) : (p.use_wall).2.goal_row = p.goal_row := by
  unfold Player.use_wall; split <;> rfl

/-- A successful `place_wall` commits exactly one validated wall and
leaves both players' positions and goal rows unchanged. -/
theorem place_wall_success_shape (s : GameState) (r c : Int) (o : String)
    (h : (s.place_wall r c o).1 = true) :
    ∃ wall : Wall,
      MoveValidator.is_valid_wall_placement wall s.current_player
        s.opponent_player s.wall_manager = true ∧
      ((s.place_wall r c o).2.2).wall_manager =
        (s.wall_manager.add_wall wall).2 ∧
      ((s.place_wall r c o).2.2).player1.position = s.player1.position ∧
      ((s.place_wall r c o).2.2).player1.goal_row = s.player1.goal_row ∧
      ((s.place_wall r c o).2.2).player2.position = s.player2.position ∧
      ((s.place_wall r c o).2.2).player2.goal_row = s.player2.goal_row := by
  revert h
  unfold GameState.place_wall
  split
  · intro h; exact absurd h (by simp)
  · split
    · intro h; exact absurd h (by simp)
    · rcases ho : Orientation.fromString o with _ | orient
      · intro h; exact absurd h (by simp)
      · dsimp only
        rcases hw : Wall.make r c orient with _ | wall
        · intro h; exact absurd h (by simp)
        · dsimp only
          by_cases hv : MoveValidator.is_valid_wall_placement wall
              s.current_player s.opponent_player s.wall_manager = true
          · rw [if_neg (by simp [hv])]
            intro _
            refine ⟨wall, hv, ?_, ?_, ?_, ?_, ?_⟩ <;>
              · unfold GameState.switch_turn GameState.set_current_player
                  GameState.current_player
                split <;> rename_i hc <;>
                  simp [use_wall_pos, use_wall_goal]
          · rw [if_pos (by simp [hv])]
            intro h; exact absurd h (by simp)

/-- A validated wall placement leaves both given players a path in the
post-placement manager. -/
theorem is_valid_wall_placement_paths {wall : Wall} {player opponent : Player}
    {wm : WallManager} (hinv : wm.Invariant)
    (h : MoveValidator.is_valid_wall_placement wall player opponent wm = true) :
    Pathfinder.has_path_to_goal player.position player.goal_row
      ((wm.add_wall wall).2) = true ∧
    Pathfinder.has_path_to_goal opponent.position opponent.goal_row
      ((wm.add_wall wall).2) = true := by
  unfold MoveValidator.is_valid_wall_placement at h
  split at h
  · exact absurd h (by simp)
  · split at h
    · exact absurd h (by simp)
    · rw [copy_eq wm hinv] at h
      unfold Pathfinder.can_place_wall_safely at h
      dsimp only at h
      by_cases hb : Pathfinder.has_path_to_goal player.position
          player.goal_row ((wm.add_wall wall).2) = true
      · rw [if_neg (by simp [hb])] at h
        exact ⟨hb, h⟩
      · rw [if_pos (by simp at hb ⊢; exact hb)] at h
        exact absurd h (by simp)

/-- C1: after every accepted wall placement on a reachable state, both
players still have a finite-length path — `Pathfinder` reports one over
the updated severed-edge set, and an actual path in the graph exists —
from their current position to their own goal row. -/
theorem C1_no_full_block (s : GameState) (h : Reachable s) (r c : Int)
    (o : String) (hsucc : (s.place_wall r c o).1 = true) :
    (Pathfinder.has_path_to_goal ((s.place_wall r c o).2.2).player1.position
        ((s.place_wall r c o).2.2).player1.goal_row
        ((s.place_wall r c o).2.2).wall_manager = true ∧
      ∃ σ, GoalPathFrom ((s.place_wall r c o).2.2).wall_manager
        ((s.place_wall r c o).2.2).player1.position
        ((s.place_wall r c o).2.2).player1.goal_row σ) ∧
    (Pathfinder.has_path_to_goal ((s.place_wall r c o).2.2).player2.position
        ((s.place_wall r c o).2.2).player2.goal_row
        ((s.place_wall r c o).2.2).wall_manager = true ∧
      ∃ σ, GoalPathFrom ((s.place_wall r c o).2.2).wall_manager
        ((s.place_wall r c o).2.2).player2.position
        ((s.place_wall r c o).2.2).player2.goal_row σ) := by
  obtain ⟨wall, hvalid, hwm, hp1pos, hp1goal, hp2pos, hp2goal⟩ :=
    place_wall_success_shape s r c o hsucc
  obtain ⟨_, _, _, _, hv1, hv2, hinv, _⟩ := h.wf
  have hpaths := is_valid_wall_placement_paths hinv hvalid
  have hps : Pathfinder.has_path_to_goal s.player1.position s.player1.goal_row
      ((s.wall_manager.add_wall wall).2) = true ∧
      Pathfinder.has_path_to_goal s.player2.position s.player2.goal_row
        ((s.wall_manager.add_wall wall).2) = true := by
    unfold GameState.current_player GameState.opponent_player at hpaths
    by_cases ht : s.current_turn = 1
    · rw [if_pos ht, if_pos ht] at hpaths
      exact hpaths
    · rw [if_neg ht, if_neg ht] at hpaths
      exact ⟨hpaths.2, hpaths.1⟩
  rw [hwm, hp1pos, hp1goal, hp2pos, hp2goal]
  have hexists : ∀ (p : Position), p.valid → ∀ g : Int,
      Pathfinder.has_path_to_goal p g ((s.wall_manager.add_wall wall).2) =
        true →
      ∃ σ, GoalPathFrom ((s.wall_manager.add_wall wall).2) p g σ := by
    intro p hpv g hp
    unfold Pathfinder.has_path_to_goal at hp
    rw [Option.isSome_iff_exists] at hp
    obtain ⟨π, hπ⟩ := hp
    have hspec := find_shortest_path_spec p hpv g
      ((s.wall_manager.add_wall wall).2) none
    rw [hπ] at hspec
    exact ⟨π, hspec.1⟩
  exact ⟨⟨hps.1, hexists _ hv1 _ hps.1⟩, ⟨hps.2, hexists _ hv2 _ hps.2⟩⟩

/-- C1 witness: the first wall placement on a fresh game. -/
theorem C1_witness :
    Pathfinder.has_path_to_goal
      ((initialState.place_wall 4 4 "horizontal").2.2).player1.position
      ((initialState.place_wall 4 4 "horizontal").2.2).player1.goal_row
      ((initialState.place_wall 4 4 "horizontal").2.2).wall_manager = true ∧
    Pathfinder.has_path_to_goal
      ((initialState.place_wall 4 4 "horizontal").2.2).player2.position
      ((initialState.place_wall 4 4 "horizontal").2.2).player2.goal_row
      ((initialState.place_wall 4 4 "horizontal").2.2).wall_manager = true :=
  have h := C1_no_full_block initialState
    (Reachable.init "g" "P" "A" "vs_ai" _ initialState_init) 4 4 "horizontal"
    (by decide)
  ⟨h.1.1, h.2.1⟩

end Quoridor
